import Mathlib

/-!
Verification of the book-ingestion pipeline of `cmd/gen-books/gen_book.go`.

The Go source is shallowly embedded: pure functions become Lean functions,
the file system and the external snippet extractor become explicit
parameters, process exit and printed diagnostics become explicit values in
result types.  External collaborators whose source is not part of the
repository snapshot (`pkg/kvstore`, `pkg/common`, `maybePanicIfErr`,
`soUserIDToNameMap`) are modelled from the specification text, each marked
with a `Modelled from the spec:` doc comment.
-/

namespace BooksGen

/-! ## String helpers

Strings are manipulated through their underlying character lists so that
every definition reduces by computation. -/

/-- Lower-case a string character by character.  Models `strings.ToLower`. -/
def strToLower (s : String) : String :=
  String.mk (s.data.map Char.toLower)

/-- Modelled from the spec: `common.MakeURLSafe` (package `pkg/common` is not
part of the snapshot).  The spec only requires a deterministic URL-safe slug
derived from a title; we lower-case alphanumeric characters and replace every
other character by a dash. -/
def charURLSafe (c : Char) : Char :=
  if c.isAlphanum then c.toLower else '-'

/-- Modelled from the spec: deterministic slug of a title, see `charURLSafe`. -/
def makeURLSafe (s : String) : String :=
  String.mk (s.data.map charURLSafe)

/-- Models `strings.Contains(s, " ")`: a single-character substring test is a
character membership test. -/
def hasSpaceChar (s : String) : Bool :=
  s.data.contains ' '

/-- Drop leading and trailing space characters. -/
def trimSpaces (s : String) : String :=
  String.mk (((s.data.dropWhile (fun c => c == ' ')).reverse.dropWhile
    (fun c => c == ' ')).reverse)

/-- Interleave newline characters between character lists. -/
def joinWithNl : List (List Char) → List Char
  | [] => []
  | [x] => x
  | x :: xs => x ++ '\n' :: joinWithNl xs

/-- Join a list of lines with newline characters (used for multi-line values
of the kvstore format). -/
def joinNl (ls : List String) : String :=
  String.mk (joinWithNl (ls.map String.data))

/-- Split a character list at every occurrence of `c`. -/
def splitCh (c : Char) : List Char → List (List Char)
  | [] => [[]]
  | x :: xs =>
    if x = c then [] :: splitCh c xs
    else
      match splitCh c xs with
      | [] => [[x]]
      | y :: ys => (x :: y) :: ys

/-- Split a string into its newline-separated lines. -/
def splitNl (s : String) : List String :=
  (splitCh '\n' s.data).map String.mk

/-- `l` occurs as a line of the (possibly multi-line) string `v`. -/
def isLineOf (l v : String) : Prop :=
  l ∈ splitNl v

/-- Join path components with a slash.  Models `filepath.Join` for the
well-formed relative paths this pipeline builds. -/
def joinPath (a b : String) : String :=
  a ++ "/" ++ b

/-- Directory part of a path.  Models `filepath.Dir` for the slash-joined
paths this pipeline builds. -/
def dirOf (p : String) : String :=
  String.mk (List.intercalate ['/'] ((p.data.splitOn '/').dropLast))

/-- Extension of a file name including the dot, `""` when there is no dot.
Models `filepath.Ext`. -/
def extOf (name : String) : String :=
  match name.data.splitOn '.' with
  | [] => ""
  | [_] => ""
  | ps => String.mk ('.' :: ps.getLast!)

/-! ## KV documents

`kvstore.Doc` is an ordered list of key/value entries. -/

/-- One entry of a kvstore document (`kvstore.KeyValue`). -/
structure KeyValue where
  Key : String
  Value : String
deriving Repr, DecidableEq

/-- `kvstore.Doc`: an ordered sequence of entries; keys may repeat. -/
abbrev Doc := List KeyValue

/-- Modelled from the spec: `Doc.GetValue` returns the first entry's value
for the key, or a not-found error (here `none`).  Package `pkg/kvstore` is
not part of the snapshot. -/
def getValue (doc : Doc) (key : String) : Option String :=
  match doc with
  | [] => none
  | kv :: rest => if kv.Key == key then some kv.Value else getValue rest key

/-- Modelled from the spec: `Doc.GetValueSilent` never fails, substituting
the default. -/
def getValueSilent (doc : Doc) (key defVal : String) : String :=
  (getValue doc key).getD defVal

/-- Split a character list at the first colon, if any. -/
def splitFirstColon : List Char → Option (List Char × List Char)
  | [] => none
  | c :: rest =>
    if c = ':' then some ([], rest)
    else (splitFirstColon rest).map (fun p => (c :: p.1, p.2))

/-- Modelled from the spec: the kvstore line grammar.  A key line is
`key: value` with a nonempty alphanumeric key before the first colon; any
other line is a continuation line of the current entry's value. -/
def keySplit (l : String) : Option (String × String) :=
  match splitFirstColon l.data with
  | none => none
  | some (k, v) =>
    if k ≠ [] ∧ k.all Char.isAlphanum then
      some (String.mk k, trimSpaces (String.mk v))
    else none

/-- Initial value lines of a fresh entry: the inline value when nonempty. -/
def kvInit (v : String) : List String :=
  if v == "" then [] else [v]

/-- Emit the entry currently being accumulated, if any. -/
def kvFlush : Option (String × List String) → Doc
  | none => []
  | some (k, vs) => [⟨k, joinNl vs⟩]

/-- Modelled from the spec: the kvstore tokenizer.  A key line begins a new
entry; subsequent non-key lines accumulate into the current entry's value. -/
def kvGo : Option (String × List String) → List String → Doc
  | cur, [] => kvFlush cur
  | cur, l :: rest =>
    match keySplit l with
    | some (k, v) => kvFlush cur ++ kvGo (some (k, kvInit v)) rest
    | none =>
      match cur with
      | some (k, vs) => kvGo (some (k, vs ++ [l])) rest
      | none => kvGo none rest

/-- Modelled from the spec: `kvstore.ParseKVLines` (entry point
parse-from-lines of the external tokenizer). -/
def parseKVLines (lines : List String) : Doc :=
  kvGo none lines

/-! ## File system model and include expansion -/

/-- One entry of a directory listing (`os.FileInfo` as used by the code). -/
structure FileInfo where
  name : String
  isDir : Bool
  isRegular : Bool
deriving Repr, DecidableEq

/-- The file system as seen by the pipeline: `common.ReadFileAsLines` and
`ioutil.ReadDir`, with `none` standing for an I/O error. -/
structure FS where
  readLines : String → Option (List String)
  readDir : String → Option (List FileInfo)

/-- The external snippet extractor `extractCodeSnippetsAsMarkdownLines`
(defined elsewhere in the repository), taken as a parameter: given the
including file's directory and the full `@file` directive line it returns
the extracted markdown lines or an error. -/
abbrev Extractor := String → String → Except String (List String)

/-- The line starts with the include directive prefix `@file `. -/
def startsAtFile (l : String) : Bool :=
  ("@file ".data).isPrefixOf l.data

/-- Replace every `@file` directive line by the lines the extractor produces
for it; the first extractor error aborts.  Embeds the loop body of
`processFileIncludes`. -/
def expandIncludeLines (ext : Extractor) (dir : String) :
    List String → Except String (List String)
  | [] => .ok []
  | l :: rest =>
    if startsAtFile l then
      match ext dir l with
      | .error e => .error e
      | .ok ls =>
        match expandIncludeLines ext dir rest with
        | .error e => .error e
        | .ok rs => .ok (ls ++ rs)
    else
      match expandIncludeLines ext dir rest with
      | .error e => .error e
      | .ok rs => .ok (l :: rs)

/-- `processFileIncludes`: read the file as lines and expand `@file`
directives. -/
def processFileIncludes (fs : FS) (ext : Extractor) (path : String) :
    Except String (List String) :=
  match fs.readLines path with
  | none => .error ("ReadFileAsLines failed: " ++ path)
  | some lines => expandIncludeLines ext (dirOf path) lines

/-- Modelled from the spec: `kvstore.ParseKVFile` (entry point
parse-from-path): read the raw file and tokenize it. -/
def parseKVFile (fs : FS) (path : String) : Except String Doc :=
  match fs.readLines path with
  | none => .error ("ParseKVFile failed: " ++ path)
  | some lines => .ok (parseKVLines lines)

/-- `paarseKVFileWithIncludes`: parse with include expansion; if expansion
fails, retry on the original unexpanded file. -/
def paarseKVFileWithIncludes (fs : FS) (ext : Extractor) (path : String) :
    Except String Doc :=
  match processFileIncludes fs ext path with
  | .ok lines => .ok (parseKVLines lines)
  | .error _ => parseKVFile fs path

/-! ## Data model -/

/-- The scalar fields of an `Article` (everything except the `Siblings`
list; the `Chapter` back-pointer is dropped, and `BodyHTML` is a plain
string standing for `template.HTML`). -/
structure ArticleData where
  ID : String := ""
  No : Nat := 0
  Title : String := ""
  FileNameBase : String := ""
  BodyMarkdown : String := ""
  BodyHTML : String := ""
  IsCurrent : Bool := false
  sourceFilePath : String := ""
  AnalyticsCode : String := ""
deriving Repr, DecidableEq

/-- `Article`: scalar fields plus the `Siblings` list of full article
values, exactly as in the Go struct. -/
inductive Article where
  | mk (data : ArticleData) (Siblings : List Article)

/-- Scalar fields of an article. -/
def Article.data : Article → ArticleData
  | .mk d _ => d

/-- Sibling list of an article. -/
def Article.Siblings : Article → List Article
  | .mk _ s => s

/-- Copy of the article with `No` replaced (struct copy plus field update). -/
def Article.setNo : Article → Nat → Article
  | .mk d s, n => .mk { d with No := n } s

/-- Copy of the article with `IsCurrent` replaced. -/
def Article.setCurrent : Article → Bool → Article
  | .mk d s, b => .mk { d with IsCurrent := b } s

/-- Copy of the article with `Siblings` replaced. -/
def Article.setSiblings : Article → List Article → Article
  | .mk d _, s => .mk d s

instance : Inhabited Article := ⟨.mk {} []⟩

/-- `Chapter` (the `Book` back-pointer is dropped; `parseChapter` receives
the book's source directory explicitly instead). -/
structure Chapter where
  ID : String := ""
  ChapterDir : String := ""
  indexFilePath : String := ""
  indexDoc : Doc := []
  Title : String := ""
  FileNameBase : String := ""
  Articles : List Article := []
  No : Nat := 0
  AnalyticsCode : String := ""

instance : Inhabited Chapter := ⟨{}⟩

/-- A Stack Overflow contributor (`SoContributor`). -/
structure SoContributor where
  ID : Nat
  URLPart : String
  Name : String
deriving Repr, DecidableEq

/-- `Book` (rendering-only fields kept; the semaphore and wait group live in
the concurrency model instead). -/
structure Book where
  Title : String := ""
  titleSafe : String := ""
  TitleLong : String := ""
  FileNameBase : String := ""
  Chapters : List Chapter := []
  sourceDir : String := ""
  destDir : String := ""
  SoContributors : List SoContributor := []
  cachedArticlesCount : Nat := 0
  knownUrls : List String := []
  AnalyticsCode : String := ""

/-- Destination directory for generated html; defined in a part of the
repository outside the snapshot, its value is irrelevant here. -/
def destEssentialDir : String := "books_html/essential"

/-- The sum the `ArticlesCount` loop computes: owned articles plus one
`000-index.md` article per chapter. -/
def articlesTotal (b : Book) : Nat :=
  (b.Chapters.map (fun c => c.Articles.length)).sum + b.Chapters.length

/-- `Book.ArticlesCount` with its memoization: returns the cached count when
it is nonzero, otherwise computes, stores and returns it.  The returned book
carries the updated cache (Go mutates the receiver). -/
def Book.ArticlesCount (b : Book) : Nat × Book :=
  if b.cachedArticlesCount ≠ 0 then (b.cachedArticlesCount, b)
  else
    let n := articlesTotal b
    (n, { b with cachedArticlesCount := n })

/-! ## parseArticle -/

/-- `defTitle`. -/
def defTitle : String := "No Title"

/-- Result of `parseArticle`: the returned article or error, plus the KV
document dumped to diagnostics by `dumpKV` when neither body field exists. -/
structure ParseArticleOut where
  res : Except String Article
  dumped : Option Doc
deriving Inhabited

/-- Whether an `Except` result is a success. -/
def exceptIsOk {ε α : Type} : Except ε α → Bool
  | .ok _ => true
  | .error _ => false

/-- The part of `parseArticle` that runs after the KV document has been
parsed: extract `Id` (space forbidden), `Title` (defaulted), derive
`FileNameBase`, and pick the body from `Body`, else `BodyHtml`, else fail
after dumping the document. -/
def parseArticleFromDoc (path : String) (doc : Doc) : ParseArticleOut :=
  match getValue doc "Id" with
  | none => ⟨.error ("parseArticle missing Id: " ++ path), none⟩
  | some id =>
    if hasSpaceChar id then
      ⟨.error ("parseArticle ID has space: " ++ path), none⟩
    else
      let title := getValueSilent doc "Title" defTitle
      let fnb := "a-" ++ id ++ "-" ++ makeURLSafe title
      let base : ArticleData :=
        { ID := id, Title := title, FileNameBase := fnb,
          sourceFilePath := path }
      match getValue doc "Body" with
      | some b => ⟨.ok (.mk { base with BodyMarkdown := b } []), none⟩
      | none =>
        match getValue doc "BodyHtml" with
        | some s => ⟨.ok (.mk { base with BodyHTML := s } []), none⟩
        | none => ⟨.error ("parseArticle no body: " ++ path), some doc⟩

/-- `parseArticle`: parse the KV file (with include expansion) and build the
article. -/
def parseArticle (fs : FS) (ext : Extractor) (path : String) :
    ParseArticleOut :=
  match paarseKVFileWithIncludes fs ext path with
  | .error e => ⟨.error e, none⟩
  | .ok doc => parseArticleFromDoc path doc

/-! ## buildArticleSiblings -/

/-- Replace the element at index `i` by `f` of it (Go `copy[i].IsCurrent =
true` on a slice copy). -/
def modifyAt {α : Type} (f : α → α) : Nat → List α → List α
  | _, [] => []
  | 0, a :: as => f a :: as
  | n + 1, a :: as => a :: modifyAt f n as

/-- `buildArticleSiblings`: build one template list of value copies of the
chapter's articles (each stamped with its 1-based ordinal), then give every
article a fresh copy of the template with exactly its own entry marked
current. -/
def buildArticleSiblings (articles : List Article) : List Article :=
  let siblings := articles.enum.map (fun p => p.2.setNo (p.1 + 1))
  articles.enum.map
    (fun p => p.2.setSiblings (modifyAt (fun a => a.setCurrent true) p.1 siblings))

/-! ## parseChapter -/

/-- The file participates in article scanning: a regular file with a
case-insensitive `.md` extension that is not the chapter index. -/
def isArticleFile (fi : FileInfo) : Bool :=
  !fi.isDir && fi.isRegular && strToLower (extOf fi.name) == ".md" &&
    strToLower fi.name != "000-index.md"

/-- The article-scanning loop of `parseChapter`: walk the directory listing,
parse every article file, assign 1-based ordinals in listing order, stop at
the first error. -/
def parseChapterArts (fs : FS) (ext : Extractor) (dir : String)
    (acc : List Article) : List FileInfo → Except String (List Article)
  | [] => .ok acc
  | fi :: rest =>
    if isArticleFile fi then
      match (parseArticle fs ext (joinPath dir fi.name)).res with
      | .error e => .error e
      | .ok a =>
        parseChapterArts fs ext dir (acc ++ [a.setNo (acc.length + 1)]) rest
    else parseChapterArts fs ext dir acc rest

/-- `parseChapter`: parse the chapter's `000-index.md`, extract the
mandatory `Title` and `Id` (space forbidden in the ID), derive
`FileNameBase`, parse every sibling article file and attach the sibling
lists.  Go mutates the chapter in place and returns an error; we return the
chapter as mutated up to the failure point together with the error, and a
read-dir failure yields an empty listing exactly as in the source (its error
is ignored there). -/
def parseChapter (fs : FS) (ext : Extractor) (sourceDir : String)
    (c : Chapter) : Chapter × Option String :=
  let dir := joinPath sourceDir c.ChapterDir
  let path := joinPath dir "000-index.md"
  let doc := (paarseKVFileWithIncludes fs ext path).toOption.getD []
  let c2 := { c with indexFilePath := path, indexDoc := doc }
  match getValue doc "Title" with
  | none => (c2, some ("parseChapter missing Title: " ++ path))
  | some title =>
    let c3 := { c2 with Title := title }
    match getValue doc "Id" with
    | none => (c3, some ("parseChapter missing Id: " ++ path))
    | some id =>
      let c4 := { c3 with ID := id }
      if hasSpaceChar id then
        (c4, some ("parseChapter ID has space: " ++ path))
      else
        let c5 := { c4 with
          FileNameBase := "ch-" ++ id ++ "-" ++ makeURLSafe title }
        let fis := (fs.readDir dir).getD []
        match parseChapterArts fs ext dir [] fis with
        | .error e => (c5, some e)
        | .ok arts => ({ c5 with Articles := buildArticleSiblings arts }, none)

/-! ## Contributors chapter -/

/-- `soContributorURL`. -/
def soContributorURL (userID : Nat) (userName : String) : String :=
  "https://stackoverflow.com/users/" ++ toString userID ++ "/" ++ userName

/-- `genContributorsMarkdown`. -/
def genContributorsMarkdown (contributors : List SoContributor) : String :=
  if contributors.length == 0 then ""
  else
    joinNl
      (["Contributors from [GitHub](https://github.com/essentialbooks/books/graphs/contributors)",
        "",
        "Contributors from Stack Overflow:"] ++
        contributors.map
          (fun c => "* [" ++ c.Name ++ "](" ++ soContributorURL c.ID c.Name ++ ")"))

/-- `genContributorsChapter`: the synthetic chapter appended after the join
barrier; it is not sourced from disk, so its directory, index path and ID
stay empty. -/
def genContributorsChapter (book : Book) : Chapter :=
  { indexDoc := [⟨"Body", genContributorsMarkdown book.SoContributors⟩],
    Title := "Contributors",
    FileNameBase := "ch-contributors",
    No := 999 }

/-! ## Identifier registry (`ensureUniqueIds`) -/

/-- First value bound to a key in an association list (models a Go map the
code only inserts fresh keys into). -/
def alookup {α : Type} : List (String × α) → String → Option α
  | [], _ => none
  | p :: m, k => if p.1 == k then some p.2 else alookup m k

/-- Outcome of the identifier walk when no fatal condition occurs: the URL
manifest and the diagnostics recorded for duplicate article IDs. -/
structure EnsureOut where
  urls : List String
  errors : List String
deriving Repr, DecidableEq

/-- Outcome of `ensureUniqueIds`: either the process terminates (duplicate
chapter ID: both colliding chapters are printed and `os.Exit(1)` runs), or
the walk completes. -/
inductive EnsureResult where
  | fatal (out : List String)
  | done (out : EnsureOut)
deriving Repr, DecidableEq

/-- The three lines printed for a duplicate chapter ID, in print order. -/
def dupChapterMsg (c chap : Chapter) : List String :=
  ["Duplicate chapter id '" ++ c.ID ++ "' in:",
   "Chapter '" ++ c.Title ++ "', file: '" ++ c.indexFilePath ++ "'",
   "Chapter '" ++ chap.Title ++ "', file: '" ++ chap.indexFilePath ++ "'"]

/-- The diagnostic recorded for a duplicate article ID.  Modelled from the
spec: `maybePanicIfErr` (not in the snapshot) records the error and
continues in the default non-strict mode. -/
def dupArticleMsg (a a2 : Article) : String :=
  "Duplicate article id: '" ++ a.data.ID ++ "', in: " ++
    a.data.sourceFilePath ++ " and " ++ a2.data.sourceFilePath

/-- The per-chapter article walk of `ensureUniqueIds`: record fresh article
IDs and their slugs, record a diagnostic for duplicates and continue. -/
def ensureArticles (articleIds : List (String × Article)) (urls errs : List String) :
    List Article → List (String × Article) × List String × List String
  | [] => (articleIds, urls, errs)
  | a :: as =>
    match alookup articleIds a.data.ID with
    | some a2 => ensureArticles articleIds urls (errs ++ [dupArticleMsg a a2]) as
    | none =>
      ensureArticles ((a.data.ID, a) :: articleIds)
        (urls ++ [a.data.FileNameBase]) errs as

/-- The chapter walk of `ensureUniqueIds`: a repeated chapter ID is fatal,
otherwise record the chapter slug and walk its articles. -/
def ensureChapters (chapterIds : List (String × Chapter))
    (articleIds : List (String × Article)) (urls errs : List String) :
    List Chapter → EnsureResult
  | [] => .done ⟨urls, errs⟩
  | c :: cs =>
    match alookup chapterIds c.ID with
    | some chap => .fatal (dupChapterMsg c chap)
    | none =>
      let t := ensureArticles articleIds (urls ++ [c.FileNameBase]) errs c.Articles
      ensureChapters ((c.ID, c) :: chapterIds) t.1 t.2.1 t.2.2 cs

/-- `ensureUniqueIds`. -/
def ensureUniqueIds (book : Book) : EnsureResult :=
  ensureChapters [] [] [] [] book.Chapters

/-! ## Spec-side description of the URL manifest

These definitions follow the specification's words ("the manifest is the
ordered concatenation of all unique chapter and article URL slugs
encountered") and are compared with `ensureUniqueIds` in the theorems. -/

/-- Slugs of the articles whose ID is fresh with respect to `seen`. -/
def artUrls (seen : List String) : List Article → List String
  | [] => []
  | a :: as =>
    if a.data.ID ∈ seen then artUrls seen as
    else a.data.FileNameBase :: artUrls (a.data.ID :: seen) as

/-- Article IDs seen after walking the list. -/
def artSeen (seen : List String) : List Article → List String
  | [] => seen
  | a :: as =>
    if a.data.ID ∈ seen then artSeen seen as
    else artSeen (a.data.ID :: seen) as

/-- Number of duplicate article occurrences in the list, relative to
`seen`. -/
def artDupCount (seen : List String) : List Article → Nat
  | [] => 0
  | a :: as =>
    if a.data.ID ∈ seen then artDupCount seen as + 1
    else artDupCount (a.data.ID :: seen) as

/-- Spec-side manifest: chapter slug, then the slugs of its fresh articles,
chapter by chapter in order. -/
def manifestGo (seen : List String) : List Chapter → List String
  | [] => []
  | c :: cs =>
    (c.FileNameBase :: artUrls seen c.Articles) ++
      manifestGo (artSeen seen c.Articles) cs

/-- Spec-side manifest of a chapter list. -/
def manifestUrls (chapters : List Chapter) : List String :=
  manifestGo [] chapters

/-- Number of duplicate article occurrences across the whole chapter list. -/
def bookDupCount (seen : List String) : List Chapter → Nat
  | [] => 0
  | c :: cs =>
    artDupCount seen c.Articles + bookDupCount (artSeen seen c.Articles) cs

/-- All article IDs of a chapter list, in walking order. -/
def allArticleIds (chapters : List Chapter) : List String :=
  chapters.flatMap (fun c => c.Articles.map (fun a => a.data.ID))

/-! ## parseBook -/

/-- Outcome of `parseBook`: an early `(nil, err)` return, a process
termination from `ensureUniqueIds`, or the final `(book, err2)` pair. -/
inductive ParseBookResult where
  | failed (msg : String)
  | exitProcess (code : Nat) (out : List String)
  | finished (book : Book) (err2 : Option String)

/-- The steps of `parseBook` after the chapter list is final: identifier
validation (fatal on duplicate chapter IDs), recording the manifest, and the
`ArticlesCount` call in the final progress message. -/
def finalizeBook (book : Book) (err2 : Option String) : ParseBookResult :=
  match ensureUniqueIds book with
  | .fatal out => .exitProcess 1 out
  | .done o =>
    let b1 := { book with knownUrls := o.urls }
    .finished (Book.ArticlesCount b1).2 err2

/-- The dispatch loop's treatment of the top-level directory listing:
directories become chapter tasks in listing order, `toc.txt` is ignored,
`so_contributors.txt` loads the contributor list (`loadSoContributorsMust`,
which panics on failure — modelled as an error result), and any other file
aborts with an error. -/
def scanTopLevel (loadSo : String → Except String (List SoContributor))
    (srcDir : String) (dirsAcc : List String) (soAcc : List SoContributor) :
    List FileInfo → Except String (List String × List SoContributor)
  | [] => .ok (dirsAcc, soAcc)
  | fi :: rest =>
    if fi.isDir then scanTopLevel loadSo srcDir (dirsAcc ++ [fi.name]) soAcc rest
    else
      if strToLower fi.name == "toc.txt" then
        scanTopLevel loadSo srcDir dirsAcc soAcc rest
      else
        if strToLower fi.name == "so_contributors.txt" then
          match loadSo (joinPath srcDir fi.name) with
          | .error e => .error e
          | .ok cl => scanTopLevel loadSo srcDir dirsAcc cl rest
        else .error ("Unexpected file at top-level: '" ++ fi.name ++ "'")

/-- A fresh chapter task for one chapter directory, as built in the dispatch
loop. -/
def chapterStub (d : String) : Chapter := { ChapterDir := d }

/-- Parse every chapter directory, in directory-listing order.  Each task is
a pure function of the file system, so this is the common result of every
worker schedule (see `parseChaptersSched`). -/
def parseChaptersInOrder (fs : FS) (ext : Extractor) (srcDir : String)
    (dirs : List String) : List (Chapter × Option String) :=
  dirs.map (fun d => parseChapter fs ext srcDir (chapterStub d))

/-- One chapter task by index. -/
def chapterTask (fs : FS) (ext : Extractor) (srcDir : String)
    (dirs : List String) (i : Nat) : Chapter × Option String :=
  parseChapter fs ext srcDir (chapterStub (dirs.getD i ""))

/-- Run the chapter tasks in an arbitrary completion order `sched`, each
task writing its result into its own slot. -/
def parseChaptersSched (fs : FS) (ext : Extractor) (srcDir : String)
    (dirs : List String) (sched : List Nat) : List (Chapter × Option String) :=
  sched.foldl
    (fun arr t => arr.set t (chapterTask fs ext srcDir dirs t))
    (List.replicate dirs.length (chapterStub "", none))

/-- `parseBook`: scan the book directory, parse every chapter directory,
append the synthetic contributors chapter, renumber chapters 1-based in
final order after the join barrier, then validate identifiers.  The shared
unsynchronized error cell is represented by the last error in dispatch
order (one representative interleaving; the race itself is studied in the
worker-pool model below). -/
def parseBook (fs : FS) (ext : Extractor)
    (loadSo : String → Except String (List SoContributor))
    (bookName : String) : ParseBookResult :=
  let safe := makeURLSafe bookName
  let srcDir := joinPath "books" safe
  let book0 : Book :=
    { Title := bookName, titleSafe := safe,
      TitleLong := "Essential " ++ bookName, FileNameBase := safe,
      sourceDir := srcDir, destDir := joinPath destEssentialDir safe }
  match fs.readDir srcDir with
  | none => .failed ("ReadDir failed: " ++ srcDir)
  | some fis =>
    match scanTopLevel loadSo srcDir [] [] fis with
    | .error e => .failed e
    | .ok (dirs, soC) =>
      let book1 := { book0 with SoContributors := soC }
      let results := parseChaptersInOrder fs ext srcDir dirs
      let err2 := (results.filterMap (fun r => r.2)).getLast?
      let chapters0 := results.map (fun r => r.1) ++ [genContributorsChapter book1]
      let chapters := chapters0.enum.map (fun p => { p.2 with No := p.1 + 1 })
      finalizeBook { book1 with Chapters := chapters } err2

/-! ## Worker-pool model

Small-step semantics of the dispatch loop of `parseBook`: `sem <- true`
before spawning, and each goroutine running

```
err = parseChapter(chap)      -- write to the SHARED outer err variable
if err != nil { err2 = err }  -- read the shared err, maybe write err2
<-sem; wg.Done()
```

A task moves through phases 0 (parsing), 1 (wrote the shared `err`),
2 (checked it), 3 (released its pool slot / done).  `res t` is the outcome
of `parseChapter` for task `t` (`none` = success).  Interleavings are
sequentially consistent, which is already enough to lose an error. -/

/-- Pointwise function update (one memory cell per task phase). -/
def updFn (f : Nat → Nat) (t v : Nat) : Nat → Nat :=
  fun x => if x = t then v else f x

/-- Shared state of the dispatch loop and its goroutines. -/
structure PoolState where
  next : Nat
  active : List Nat
  phase : Nat → Nat
  errV : Option String
  err2V : Option String

/-- Initial state: nothing dispatched. -/
def initPool : PoolState :=
  { next := 0, active := [], phase := fun _ => 0, errV := none, err2V := none }

/-- One sequentially consistent step of the pool, with `M` tasks, pool size
`N` and per-task results `res`. -/
inductive PoolStep (M N : Nat) (res : Nat → Option String) :
    PoolState → PoolState → Prop
  | dispatch (s : PoolState) (h1 : s.next < M) (h2 : s.active.length < N) :
      PoolStep M N res s
        { s with next := s.next + 1, active := s.next :: s.active }
  | write (s : PoolState) (t : Nat) (ht : t ∈ s.active) (hp : s.phase t = 0) :
      PoolStep M N res s
        { s with phase := updFn s.phase t 1, errV := res t }
  | check (s : PoolState) (t : Nat) (ht : t ∈ s.active) (hp : s.phase t = 1) :
      PoolStep M N res s
        { s with phase := updFn s.phase t 2,
                 err2V := if (s.errV).isSome then s.errV else s.err2V }
  | release (s : PoolState) (t : Nat) (ht : t ∈ s.active) (hp : s.phase t = 2) :
      PoolStep M N res s
        { s with active := s.active.erase t,
                 phase := updFn s.phase t 3 }

/-- Reachable pool states. -/
inductive PoolReach (M N : Nat) (res : Nat → Option String) : PoolState → Prop
  | init : PoolReach M N res initPool
  | step {s s' : PoolState} : PoolReach M N res s → PoolStep M N res s s' →
      PoolReach M N res s'

/-- The dispatch loop has finished and `wg.Wait()` has returned: every task
was dispatched and every pool slot released. -/
def atBarrier (M : Nat) (s : PoolState) : Prop :=
  s.next = M ∧ s.active = []

/-- The inductive invariant of the pool. -/
def PoolInv (N : Nat) (s : PoolState) : Prop :=
  s.active.length ≤ N ∧
  (∀ t ∈ s.active, t < s.next) ∧
  s.active.Nodup ∧
  (∀ t, s.next ≤ t → s.phase t = 0) ∧
  (∀ t, t < s.next → t ∉ s.active → s.phase t = 3)

/-- Results used by the lost-error execution: task 0 fails, task 1
succeeds. -/
def resLost : Nat → Option String
  | 0 => some "chapter 0 failed"
  | _ => none

/-! ## Concrete fixtures used by the witnesses -/

/-- A tiny book directory: one chapter `ch1` with an index document and one
article file. -/
def cfs : FS :=
  { readDir := fun p =>
      if p == "books/b" then some [⟨"ch1", true, false⟩]
      else if p == "books/b/ch1" then
        some [⟨"000-index.md", false, true⟩, ⟨"a1.md", false, true⟩]
      else none,
    readLines := fun p =>
      if p == "books/b/ch1/000-index.md" then some ["Title: C", "Id: 1"]
      else if p == "books/b/ch1/a1.md" then
        some ["Id: 2", "Title: A", "Body: hi"]
      else none }

/-- An extractor that always fails (its success is irrelevant when no line
starts with `@file `). -/
def cextFail : Extractor := fun _ _ => .error "no snippet"

/-- An extractor that expands every directive to two fixed lines. -/
def cextOk : Extractor := fun _ _ => .ok ["line1", "line2"]

/-- A contributor loader that never succeeds (no contributor file is present
in the fixtures). -/
def cloadSo : String → Except String (List SoContributor) :=
  fun _ => .error "no contributors"

/-- A chapter index whose `Id` contains a space character. -/
def cfsSpace : FS :=
  { readDir := fun _ => none,
    readLines := fun p =>
      if p == "books/s/ch/000-index.md" then some ["Title: T", "Id: a b"]
      else none }

/-- A single file whose body contains an `@file` directive line. -/
def cfsInc : FS :=
  { readDir := fun _ => none,
    readLines := fun p =>
      if p == "d/art.md" then
        some ["Id: 7", "Body:", "@file snippets/x.go", "tail"]
      else none }

/-- The KV document of claim C5. -/
def docC5 : Doc := [⟨"Id", "42"⟩, ⟨"Title", "Intro"⟩, ⟨"Body", "hello"⟩]

/-- A KV document whose ID contains a tab character. -/
def docTab : Doc := [⟨"Id", "a\tb"⟩, ⟨"Title", "T"⟩, ⟨"Body", "x"⟩]

/-- A KV document whose ID contains a space character. -/
def docSpace : Doc := [⟨"Id", "a b"⟩, ⟨"Title", "T"⟩, ⟨"Body", "x"⟩]

/-- Extract the article of a successful parse (used to name concrete
articles in witnesses). -/
def extractArt (o : ParseArticleOut) : Article :=
  match o.res with
  | .ok a => a
  | .error _ => default

/-- The article obtained from `docC5`. -/
def artC5 : Article := extractArt (parseArticleFromDoc "p" docC5)

/-- A two-article chapter used by the sibling witnesses. -/
def artsPair : List Article :=
  [.mk { ID := "x1", Title := "one" } [], .mk { ID := "x2", Title := "two" } []]

/-- A book with a duplicate chapter ID. -/
def bookDupChapter : Book :=
  { Chapters :=
      [{ ID := "c1", Title := "First", indexFilePath := "p1" },
       { ID := "c2", Title := "Second", indexFilePath := "p2" },
       { ID := "c1", Title := "Third", indexFilePath := "p3" }] }

/-- A book with unique chapter IDs but a duplicate article ID across two
chapters. -/
def bookDupArticle : Book :=
  { Chapters :=
      [{ ID := "c1", Title := "First", FileNameBase := "ch-c1-first",
         Articles := [.mk { ID := "a1", FileNameBase := "a-a1-x",
                            sourceFilePath := "s1" } []] },
       { ID := "c2", Title := "Second", FileNameBase := "ch-c2-second",
         Articles := [.mk { ID := "a1", FileNameBase := "a-a1-y",
                            sourceFilePath := "s2" } [],
                      .mk { ID := "a2", FileNameBase := "a-a2-z",
                            sourceFilePath := "s3" } []] }] }

/-- A small book for the `ArticlesCount` witness. -/
def bookCount : Book :=
  { Chapters :=
      [{ ID := "c1", Articles := artsPair },
       { ID := "c2", Articles := [] }] }

/-- The book produced by `parseBook` on the `cfs` fixture. -/
def bookParsed : Book :=
  match parseBook cfs cextFail cloadSo "b" with
  | .finished b _ => b
  | _ => {}

/-! ## Basic lemmas about articles and list surgery -/

@[simp] theorem Article.data_mk (d : ArticleData) (s : List Article) :
    (Article.mk d s).data = d := rfl

@[simp] theorem Article.Siblings_mk (d : ArticleData) (s : List Article) :
    (Article.mk d s).Siblings = s := rfl

@[simp] theorem Article.data_setNo (a : Article) (n : Nat) :
    (a.setNo n).data = { a.data with No := n } := by cases a; rfl

@[simp] theorem Article.Siblings_setNo (a : Article) (n : Nat) :
    (a.setNo n).Siblings = a.Siblings := by cases a; rfl

@[simp] theorem Article.data_setCurrent (a : Article) (b : Bool) :
    (a.setCurrent b).data = { a.data with IsCurrent := b } := by cases a; rfl

@[simp] theorem Article.Siblings_setCurrent (a : Article) (b : Bool) :
    (a.setCurrent b).Siblings = a.Siblings := by cases a; rfl

@[simp] theorem Article.data_setSiblings (a : Article) (s : List Article) :
    (a.setSiblings s).data = a.data := by cases a; rfl

@[simp] theorem Article.Siblings_setSiblings (a : Article) (s : List Article) :
    (a.setSiblings s).Siblings = s := by cases a; rfl

@[simp] theorem modifyAt_length {α : Type} (f : α → α) (i : Nat) (l : List α) :
    (modifyAt f i l).length = l.length := by
  induction l generalizing i with
  | nil => simp [modifyAt]
  | cons a as ih =>
    cases i with
    | zero => simp [modifyAt]
    | succ n => simp [modifyAt, ih]

theorem modifyAt_get_self {α : Type} (f : α → α) (l : List α) (i : Nat)
    (h : i < l.length) (h2 : i < (modifyAt f i l).length) :
    (modifyAt f i l).get ⟨i, h2⟩ = f (l.get ⟨i, h⟩) := by
  induction l generalizing i with
  | nil => simp at h
  | cons a as ih =>
    cases i with
    | zero => simp [modifyAt]
    | succ n =>
      simp only [modifyAt, List.get_cons_succ]
      exact ih n (by simpa using h) (by simpa using h2)

theorem countP_modifyAt_one {α : Type} (p : α → Bool) (f : α → α)
    (l : List α) (i : Nat) (h : i < l.length)
    (hall : ∀ x ∈ l, p x = false)
    (hf : p (f (l.get ⟨i, h⟩)) = true) :
    (modifyAt f i l).countP p = 1 := by
  induction l generalizing i with
  | nil => simp at h
  | cons a as ih =>
    cases i with
    | zero =>
      simp only [modifyAt, List.countP_cons]
      have hz : as.countP p = 0 :=
        List.countP_eq_zero.mpr (by
          intro x hx
          simp [hall x (List.mem_cons_of_mem a hx)])
      simp only [List.get] at hf
      simp [hz, hf]
    | succ n =>
      simp only [modifyAt, List.countP_cons]
      have ha : p a = false := hall a (List.mem_cons_self a as)
      have := ih n (by simpa using h) (by
        intro x hx; exact hall x (List.mem_cons_of_mem a hx)) (by
        simpa using hf)
      simp [this, ha]

theorem listGetD_of_lt {α : Type} (l : List α) (i : Nat) (d : α)
    (h : i < l.length) : l.getD i d = l.get ⟨i, h⟩ := by
  rw [List.getD_eq_getElem?_getD, List.getElem?_eq_getElem h, Option.getD_some,
    List.get_eq_getElem]

/-- The `i`-th entry of the sibling template is a copy of the `i`-th article
stamped with ordinal `i + 1`. -/
theorem siblings_template_get (articles : List Article) (i : Nat)
    (h : i < articles.length)
    (h2 : i < (articles.enum.map (fun p => p.2.setNo (p.1 + 1))).length) :
    (articles.enum.map (fun p => p.2.setNo (p.1 + 1))).get ⟨i, h2⟩ =
      (articles.get ⟨i, h⟩).setNo (i + 1) := by
  simp [List.get_eq_getElem]

/-! ## C1 — sibling lists -/

/-- C1.  After `buildArticleSiblings` runs on a chapter's article list (whose
articles are not yet marked current, as produced by `parseArticle`), every
article's sibling list has the chapter's article count as its length, exactly
one sibling is marked current, and that sibling sits at the article's own
position and carries the article's own ID. -/
theorem buildArticleSiblings_C1 (articles : List Article)
    (hcur : ∀ a ∈ articles, a.data.IsCurrent = false) :
    (buildArticleSiblings articles).length = articles.length ∧
    ∀ i, i < articles.length →
      ((buildArticleSiblings articles).getD i default).Siblings.length =
        articles.length ∧
      (((buildArticleSiblings articles).getD i default).Siblings.countP
        (fun s => s.data.IsCurrent)) = 1 ∧
      ((((buildArticleSiblings articles).getD i default).Siblings.getD i
        default).data.IsCurrent = true) ∧
      ((((buildArticleSiblings articles).getD i default).Siblings.getD i
        default).data.ID = (articles.getD i default).data.ID) := by
  have hlen : (buildArticleSiblings articles).length = articles.length := by
    simp [buildArticleSiblings]
  refine ⟨hlen, ?_⟩
  intro i hi
  have hi2 : i < (buildArticleSiblings articles).length := by rw [hlen]; exact hi
  have hA : (buildArticleSiblings articles).getD i default =
      (articles.get ⟨i, hi⟩).setSiblings
        (modifyAt (fun a => a.setCurrent true) i
          (articles.enum.map (fun p => p.2.setNo (p.1 + 1)))) := by
    rw [listGetD_of_lt _ _ _ hi2]
    simp [buildArticleSiblings, List.get_eq_getElem]
  have hslen : (articles.enum.map (fun p => p.2.setNo (p.1 + 1))).length =
      articles.length := by simp
  have hmlen : (modifyAt (fun a => a.setCurrent true) i
      (articles.enum.map (fun p => p.2.setNo (p.1 + 1)))).length =
      articles.length := by rw [modifyAt_length, hslen]
  have hallfalse : ∀ x ∈ articles.enum.map (fun p => p.2.setNo (p.1 + 1)),
      (fun s : Article => s.data.IsCurrent) x = false := by
    intro x hx
    rw [List.mem_iff_get] at hx
    obtain ⟨⟨j, hj⟩, rfl⟩ := hx
    have hj2 : j < articles.length := by rw [← hslen]; exact hj
    rw [siblings_template_get articles j hj2 hj]
    have hm : articles.get ⟨j, hj2⟩ ∈ articles := articles.get_mem _ _
    simpa using hcur _ hm
  have hmsib : (((buildArticleSiblings articles).getD i default).Siblings.getD i
      default) = ((articles.get ⟨i, hi⟩).setNo (i + 1)).setCurrent true := by
    rw [hA, Article.Siblings_setSiblings,
      listGetD_of_lt _ _ _ (show i < _ by rw [hmlen]; exact hi),
      modifyAt_get_self _ _ i (by rw [hslen]; exact hi),
      siblings_template_get articles i hi]
  refine ⟨?_, ?_, ?_, ?_⟩
  · rw [hA]; simp [hmlen]
  · rw [hA, Article.Siblings_setSiblings]
    refine countP_modifyAt_one _ _ _ i (by rw [hslen]; exact hi) hallfalse ?_
    rw [siblings_template_get articles i hi]
    simp
  · rw [hmsib]; simp
  · rw [hmsib, listGetD_of_lt _ _ _ hi]
    simp

/-- Witness for C1 at a concrete two-article chapter. -/
theorem buildArticleSiblings_C1_witness :
    (buildArticleSiblings artsPair).length = artsPair.length ∧
    ((buildArticleSiblings artsPair).getD 0 default).Siblings.countP
      (fun s => s.data.IsCurrent) = 1 := by
  have h := buildArticleSiblings_C1 artsPair (by
    intro a ha
    simp only [artsPair, List.mem_cons, List.mem_singleton] at ha
    rcases ha with rfl | rfl | h
    · rfl
    · rfl
    · simp at h)
  exact ⟨h.1, (h.2 0 (by simp [artsPair])).2.1⟩

/-! ## C10 — ArticlesCount memoization -/

/-- C10.  `ArticlesCount` returns the sum over the chapters of their owned
article counts plus the number of chapters; the result is memoized, so any
later call returns the first computed value even after the chapter list
changes — except when the first value is `0`, which is never cached and is
recomputed from the new chapter list. -/
theorem articlesCount_C10 (b : Book) (h : b.cachedArticlesCount = 0) :
    (Book.ArticlesCount b).1 = articlesTotal b ∧
    (articlesTotal b ≠ 0 → ∀ cs : List Chapter,
      (Book.ArticlesCount { (Book.ArticlesCount b).2 with Chapters := cs }).1 =
        articlesTotal b) ∧
    (articlesTotal b = 0 → ∀ cs : List Chapter,
      (Book.ArticlesCount { (Book.ArticlesCount b).2 with Chapters := cs }).1 =
        articlesTotal { b with Chapters := cs }) := by
  have h1 : Book.ArticlesCount b =
      (articlesTotal b, { b with cachedArticlesCount := articlesTotal b }) := by
    unfold Book.ArticlesCount
    simp [h]
  refine ⟨by rw [h1], ?_, ?_⟩
  · intro hne cs
    rw [h1]
    unfold Book.ArticlesCount
    simp [hne]
  · intro hz cs
    rw [h1]
    unfold Book.ArticlesCount
    simp only [articlesTotal] at hz
    simp [articlesTotal, hz]

/-- Witness for C10 at a concrete book. -/
theorem articlesCount_C10_witness :
    (Book.ArticlesCount bookCount).1 = articlesTotal bookCount ∧
    (Book.ArticlesCount
      { (Book.ArticlesCount bookCount).2 with Chapters := [] }).1 =
      articlesTotal bookCount := by
  have h := articlesCount_C10 bookCount rfl
  exact ⟨h.1, h.2.1 (by decide) []⟩

/-! ## C5 — parseArticle on a concrete document -/

/-- C5.  A KV document with `Id=42`, `Title=Intro`, `Body=hello` parses to an
article with ID `42`, title `Intro`, markdown body `hello` and file name base
`a-42-intro`; in general the file name base is `a-` ++ ID ++ `-` ++ slug of
the title. -/
theorem parseArticle_C5 :
    (∃ a, (parseArticleFromDoc "p" docC5).res = .ok a ∧
      a.data.ID = "42" ∧ a.data.Title = "Intro" ∧
      a.data.BodyMarkdown = "hello" ∧ a.data.FileNameBase = "a-42-intro") ∧
    (∀ path doc a, (parseArticleFromDoc path doc).res = .ok a →
      a.data.FileNameBase =
        "a-" ++ a.data.ID ++ "-" ++ makeURLSafe a.data.Title) := by
  constructor
  · exact ⟨artC5, rfl, rfl, rfl, rfl, by decide⟩
  · intro path doc a h
    unfold parseArticleFromDoc at h
    cases hid : getValue doc "Id" with
    | none => rw [hid] at h; exact absurd h (by simp)
    | some id =>
      rw [hid] at h
      by_cases hs : hasSpaceChar id
      · simp [hs] at h
      · simp only [hs, if_false, Bool.false_eq_true] at h
        cases hb : getValue doc "Body" with
        | some b =>
          rw [hb] at h
          simp only [Except.ok.injEq] at h
          subst h
          simp
        | none =>
          rw [hb] at h
          cases hbh : getValue doc "BodyHtml" with
          | some s =>
            rw [hbh] at h
            simp only [Except.ok.injEq] at h
            subst h
            simp
          | none => rw [hbh] at h; exact absurd h (by simp)

/-- Witness for the general file-name-base rule of C5 at the concrete C5
document. -/
theorem parseArticle_C5_witness :
    artC5.data.FileNameBase =
      "a-" ++ artC5.data.ID ++ "-" ++ makeURLSafe artC5.data.Title :=
  parseArticle_C5.2 "p" docC5 artC5 rfl

/-! ## C6 — body selection and the diagnostic dump -/

/-- C6.  Given a valid `Id`, `parseArticle` takes the body from `Body` when
present, else from `BodyHtml` (used as-is), and fails after dumping the full
KV document when neither is present; it succeeds exactly when one of the two
body fields exists. -/
theorem parseArticle_C6 (path : String) (doc : Doc) (id : String)
    (hid : getValue doc "Id" = some id) (hsp : hasSpaceChar id = false) :
    (∀ b, getValue doc "Body" = some b →
      ∃ a, (parseArticleFromDoc path doc).res = .ok a ∧
        a.data.BodyMarkdown = b ∧ (parseArticleFromDoc path doc).dumped = none) ∧
    (getValue doc "Body" = none → ∀ s, getValue doc "BodyHtml" = some s →
      ∃ a, (parseArticleFromDoc path doc).res = .ok a ∧
        a.data.BodyHTML = s ∧ (parseArticleFromDoc path doc).dumped = none) ∧
    (getValue doc "Body" = none → getValue doc "BodyHtml" = none →
      (∃ e, (parseArticleFromDoc path doc).res = .error e) ∧
        (parseArticleFromDoc path doc).dumped = some doc) ∧
    (exceptIsOk (parseArticleFromDoc path doc).res =
      ((getValue doc "Body").isSome || (getValue doc "BodyHtml").isSome)) := by
  refine ⟨?_, ?_, ?_, ?_⟩
  · intro b hb
    have hres : (parseArticleFromDoc path doc).res = .ok (Article.mk
        { ID := id, Title := getValueSilent doc "Title" defTitle,
          FileNameBase := "a-" ++ id ++ "-" ++
            makeURLSafe (getValueSilent doc "Title" defTitle),
          BodyMarkdown := b, sourceFilePath := path } []) := by
      simp [parseArticleFromDoc, hid, hsp, hb]
    have hdmp : (parseArticleFromDoc path doc).dumped = none := by
      simp [parseArticleFromDoc, hid, hsp, hb]
    exact ⟨_, hres, rfl, hdmp⟩
  · intro hb s hbh
    have hres : (parseArticleFromDoc path doc).res = .ok (Article.mk
        { ID := id, Title := getValueSilent doc "Title" defTitle,
          FileNameBase := "a-" ++ id ++ "-" ++
            makeURLSafe (getValueSilent doc "Title" defTitle),
          BodyHTML := s, sourceFilePath := path } []) := by
      simp [parseArticleFromDoc, hid, hsp, hb, hbh]
    have hdmp : (parseArticleFromDoc path doc).dumped = none := by
      simp [parseArticleFromDoc, hid, hsp, hb, hbh]
    exact ⟨_, hres, rfl, hdmp⟩
  · intro hb hbh
    refine ⟨⟨"parseArticle no body: " ++ path, ?_⟩, ?_⟩ <;>
      simp [parseArticleFromDoc, hid, hsp, hb, hbh]
  · cases hb : getValue doc "Body" with
    | some b => simp [parseArticleFromDoc, hid, hsp, hb, exceptIsOk]
    | none =>
      cases hbh : getValue doc "BodyHtml" with
      | some s => simp [parseArticleFromDoc, hid, hsp, hb, hbh, exceptIsOk]
      | none => simp [parseArticleFromDoc, hid, hsp, hb, hbh, exceptIsOk]

/-- Witness for C6 at the concrete C5 document. -/
theorem parseArticle_C6_witness :
    ∃ a, (parseArticleFromDoc "p" docC5).res = .ok a ∧
      a.data.BodyMarkdown = "hello" ∧
      (parseArticleFromDoc "p" docC5).dumped = none :=
  (parseArticle_C6 "p" docC5 "42" rfl rfl).1 "hello" rfl

/-! ## C7 — the whitespace check only rejects the space character -/

/-- Counterexample to C7 as stated: an article whose extracted ID contains a
tab — a whitespace character — parses successfully, because the code only
checks `strings.Contains(id, " ")`. -/
theorem parseArticle_C7_counterexample :
    (getValue docTab "Id" = some "a\tb") ∧
    ("a\tb".data.any Char.isWhitespace = true) ∧
    (exceptIsOk (parseArticleFromDoc "p" docTab).res = true) := by
  refine ⟨rfl, by decide, by decide⟩

/-- C7 (amended).  An extracted chapter or article ID containing a space
character (U+0020) makes parsing fail; whitespace other than the space
character is not rejected. -/
theorem parse_id_space_rejected_C7 :
    (∀ path doc id, getValue doc "Id" = some id → hasSpaceChar id = true →
      ∃ e, (parseArticleFromDoc path doc).res = .error e) ∧
    (∀ fs ext srcDir c id,
      getValue (parseChapter fs ext srcDir c).1.indexDoc "Id" = some id →
      hasSpaceChar id = true →
      ((parseChapter fs ext srcDir c).2).isSome = true) := by
  constructor
  · intro path doc id hid hsp
    exact ⟨"parseArticle ID has space: " ++ path,
      by simp [parseArticleFromDoc, hid, hsp]⟩
  · intro fs ext srcDir c id hid hsp
    have hdoc : (parseChapter fs ext srcDir c).1.indexDoc =
        (paarseKVFileWithIncludes fs ext
          (joinPath (joinPath srcDir c.ChapterDir) "000-index.md")).toOption.getD [] := by
      simp only [parseChapter]
      cases hT : getValue ((paarseKVFileWithIncludes fs ext
          (joinPath (joinPath srcDir c.ChapterDir) "000-index.md")).toOption.getD []) "Title" with
      | none => simp [hT]
      | some title =>
        cases hI : getValue ((paarseKVFileWithIncludes fs ext
            (joinPath (joinPath srcDir c.ChapterDir) "000-index.md")).toOption.getD []) "Id" with
        | none => simp [hT, hI]
        | some id2 =>
          by_cases hs2 : hasSpaceChar id2
          · simp [hT, hI, hs2]
          · simp only [hT, hI, hs2, if_false, Bool.false_eq_true]
            cases harts : parseChapterArts fs ext
                (joinPath srcDir c.ChapterDir) []
                ((fs.readDir (joinPath srcDir c.ChapterDir)).getD []) with
            | error e => simp [harts]
            | ok arts => simp [harts]
    rw [hdoc] at hid
    simp only [parseChapter]
    cases hT : getValue ((paarseKVFileWithIncludes fs ext
        (joinPath (joinPath srcDir c.ChapterDir) "000-index.md")).toOption.getD []) "Title" with
    | none => simp [hT]
    | some title => simp [hT, hid, hsp]

/-- Witness for the amended C7 at concrete article and chapter inputs. -/
theorem parse_id_space_rejected_C7_witness :
    (∃ e, (parseArticleFromDoc "p" docSpace).res = .error e) ∧
    ((parseChapter cfsSpace cextFail "books/s" (chapterStub "ch")).2).isSome =
      true := by
  constructor
  · exact parse_id_space_rejected_C7.1 "p" docSpace "a b" rfl rfl
  · exact parse_id_space_rejected_C7.2 cfsSpace cextFail "books/s"
      (chapterStub "ch") "a b" rfl rfl

/-! ## Association list lemmas -/

theorem alookup_eq_none {α : Type} (m : List (String × α)) (k : String) :
    alookup m k = none ↔ k ∉ m.map Prod.fst := by
  induction m with
  | nil => simp [alookup]
  | cons p m ih =>
    simp only [alookup, List.map_cons, List.mem_cons]
    by_cases h : p.1 == k
    · have hk : p.1 = k := beq_iff_eq.mp h
      simp only [h, if_true]
      constructor
      · intro hc; exact absurd hc (by simp)
      · intro hc; exact absurd (Or.inl hk.symm) hc
    · have hk : ¬ k = p.1 := fun he => h (by simp [he])
      simp only [h, Bool.false_eq_true, if_false]
      rw [ih]
      constructor
      · intro hnm hc
        rcases hc with hc | hc
        · exact hk hc
        · exact hnm hc
      · intro hc hm
        exact hc (Or.inr hm)

theorem alookup_mem {α : Type} (m : List (String × α)) (k : String) (v : α)
    (h : alookup m k = some v) : (k, v) ∈ m := by
  induction m with
  | nil => simp [alookup] at h
  | cons p m ih =>
    by_cases hk : p.1 == k
    · simp only [alookup, hk, if_true, Option.some.injEq] at h
      simp only [beq_iff_eq] at hk
      subst h
      rw [← hk]
      exact List.mem_cons_self _ _
    · simp only [alookup, hk, if_false] at h
      exact List.mem_cons_of_mem _ (ih h)

/-! ## C2 — duplicate chapter IDs are fatal -/

/-- Any duplicate among the chapter IDs still to walk (or against the IDs
already registered) makes `ensureChapters` terminate the process with the
two colliding chapters printed. -/
theorem ensureChapters_fatal_of_dup (book : Book) :
    ∀ (cs : List Chapter) (ids : List (String × Chapter))
      (aids : List (String × Article)) (urls errs : List String),
      (∀ p ∈ ids, p.2 ∈ book.Chapters ∧ p.1 = p.2.ID) →
      (∀ c ∈ cs, c ∈ book.Chapters) →
      (ids.map Prod.fst).Nodup →
      ¬ (cs.map Chapter.ID ++ ids.map Prod.fst).Nodup →
      ∃ c chap, c ∈ book.Chapters ∧ chap ∈ book.Chapters ∧ c.ID = chap.ID ∧
        ensureChapters ids aids urls errs cs = .fatal (dupChapterMsg c chap) := by
  intro cs
  induction cs with
  | nil =>
    intro ids aids urls errs hids hcs hnd hdup
    exact absurd hnd (by simpa using hdup)
  | cons c cs ih =>
    intro ids aids urls errs hids hcs hnd hdup
    cases halo : alookup ids c.ID with
    | some chap =>
      obtain ⟨hc1, hc2⟩ := hids _ (alookup_mem _ _ _ halo)
      refine ⟨c, chap, hcs c (List.mem_cons_self _ _), hc1, hc2, ?_⟩
      simp [ensureChapters, halo]
    | none =>
      have hfresh : c.ID ∉ ids.map Prod.fst := (alookup_eq_none _ _).mp halo
      have hstep : ensureChapters ids aids urls errs (c :: cs) =
          ensureChapters ((c.ID, c) :: ids)
            (ensureArticles aids (urls ++ [c.FileNameBase]) errs c.Articles).1
            (ensureArticles aids (urls ++ [c.FileNameBase]) errs c.Articles).2.1
            (ensureArticles aids (urls ++ [c.FileNameBase]) errs c.Articles).2.2
            cs := by
        simp [ensureChapters, halo]
      have hperm : (c.ID :: (cs.map Chapter.ID ++ ids.map Prod.fst)).Perm
          (cs.map Chapter.ID ++ c.ID :: ids.map Prod.fst) :=
        List.perm_middle.symm
      obtain ⟨c2, chap2, h1, h2, h3, h4⟩ := ih ((c.ID, c) :: ids) _ _ _
        (by
          intro p hp
          rcases List.mem_cons.mp hp with rfl | hp2
          · exact ⟨hcs c (List.mem_cons_self _ _), rfl⟩
          · exact hids p hp2)
        (fun c' hc' => hcs c' (List.mem_cons_of_mem _ hc'))
        (by
          rw [List.map_cons, List.nodup_cons]
          exact ⟨hfresh, hnd⟩)
        (by
          intro hcon
          exact hdup (by simpa using (hperm.nodup_iff.mpr hcon)))
      exact ⟨c2, chap2, h1, h2, h3, by rw [hstep]; exact h4⟩

/-- C2.  Two chapters with the same ID make identifier validation print both
colliding chapters' titles and index-file paths and terminate the process
with exit status 1; `finalizeBook` (the remainder of `parseBook` after the
barrier) therefore never returns a `Book` value. -/
theorem ensureUniqueIds_C2 (book : Book)
    (hdup : ¬ (book.Chapters.map Chapter.ID).Nodup) :
    ∃ c chap, c ∈ book.Chapters ∧ chap ∈ book.Chapters ∧ c.ID = chap.ID ∧
      ensureUniqueIds book = .fatal (dupChapterMsg c chap) ∧
      ("Chapter '" ++ c.Title ++ "', file: '" ++ c.indexFilePath ++ "'") ∈
        dupChapterMsg c chap ∧
      ("Chapter '" ++ chap.Title ++ "', file: '" ++ chap.indexFilePath ++ "'") ∈
        dupChapterMsg c chap ∧
      ∀ e2 : Option String,
        finalizeBook book e2 = .exitProcess 1 (dupChapterMsg c chap) ∧
        ∀ b e, finalizeBook book e2 ≠ .finished b e := by
  obtain ⟨c, chap, h1, h2, h3, h4⟩ := ensureChapters_fatal_of_dup book
    book.Chapters [] [] [] [] (by simp) (fun c h => h) (by simp)
    (by simpa using hdup)
  refine ⟨c, chap, h1, h2, h3, h4, by simp [dupChapterMsg],
    by simp [dupChapterMsg], ?_⟩
  intro e2
  have hu : ensureUniqueIds book = .fatal (dupChapterMsg c chap) := h4
  constructor
  · simp [finalizeBook, hu]
  · intro b e
    simp [finalizeBook, hu]

/-- Witness for C2 at a concrete book with a repeated chapter ID. -/
theorem ensureUniqueIds_C2_witness :
    ∃ c chap, c ∈ bookDupChapter.Chapters ∧ chap ∈ bookDupChapter.Chapters ∧
      c.ID = chap.ID ∧
      ensureUniqueIds bookDupChapter = .fatal (dupChapterMsg c chap) ∧
      ∀ b e, finalizeBook bookDupChapter none ≠ .finished b e := by
  obtain ⟨c, chap, h1, h2, h3, h4, _, _, h7⟩ :=
    ensureUniqueIds_C2 bookDupChapter (by decide)
  exact ⟨c, chap, h1, h2, h3, h4, (h7 none).2⟩

/-! ## C3 — duplicate article IDs are recorded, the walk continues -/

/-- `ensureArticles` computes exactly the spec-side seen set, URL list and
duplicate count. -/
theorem ensureArticles_spec :
    ∀ (as : List Article) (aids : List (String × Article)) (urls errs : List String),
      (ensureArticles aids urls errs as).1.map Prod.fst =
        artSeen (aids.map Prod.fst) as ∧
      (ensureArticles aids urls errs as).2.1 =
        urls ++ artUrls (aids.map Prod.fst) as ∧
      (ensureArticles aids urls errs as).2.2.length =
        errs.length + artDupCount (aids.map Prod.fst) as := by
  intro as
  induction as with
  | nil =>
    intro aids urls errs
    simp [ensureArticles, artSeen, artUrls, artDupCount]
  | cons a as ih =>
    intro aids urls errs
    by_cases h : a.data.ID ∈ aids.map Prod.fst
    · obtain ⟨a2, halo⟩ : ∃ a2, alookup aids a.data.ID = some a2 := by
        cases hl : alookup aids a.data.ID with
        | none => exact absurd ((alookup_eq_none _ _).mp hl) (by simp [h])
        | some x => exact ⟨x, rfl⟩
      simp only [ensureArticles, halo, artSeen, artUrls, artDupCount, if_pos h]
      obtain ⟨i1, i2, i3⟩ := ih aids urls (errs ++ [dupArticleMsg a a2])
      refine ⟨i1, i2, ?_⟩
      rw [i3]
      simp only [List.length_append, List.length_singleton]
      omega
    · have halo : alookup aids a.data.ID = none := (alookup_eq_none _ _).mpr h
      simp only [ensureArticles, halo, artSeen, artUrls, artDupCount, if_neg h]
      obtain ⟨i1, i2, i3⟩ :=
        ih ((a.data.ID, a) :: aids) (urls ++ [a.data.FileNameBase]) errs
      refine ⟨?_, ?_, ?_⟩
      · rw [i1]; rfl
      · rw [i2]; simp [List.append_assoc]
      · rw [i3]; rfl

/-- When no chapter ID repeats, `ensureChapters` completes and produces the
spec-side manifest, with one recorded diagnostic per duplicate article
occurrence. -/
theorem ensureChapters_done_spec :
    ∀ (cs : List Chapter) (ids : List (String × Chapter))
      (aids : List (String × Article)) (urls errs : List String),
      (cs.map Chapter.ID).Nodup →
      (∀ c ∈ cs, c.ID ∉ ids.map Prod.fst) →
      ∃ errs2, ensureChapters ids aids urls errs cs =
          .done ⟨urls ++ manifestGo (aids.map Prod.fst) cs, errs2⟩ ∧
        errs2.length = errs.length + bookDupCount (aids.map Prod.fst) cs := by
  intro cs
  induction cs with
  | nil =>
    intro ids aids urls errs _ _
    exact ⟨errs, by simp [ensureChapters, manifestGo], by simp [bookDupCount]⟩
  | cons c cs ih =>
    intro ids aids urls errs hnd hfresh
    have halo : alookup ids c.ID = none :=
      (alookup_eq_none _ _).mpr (hfresh c (List.mem_cons_self _ _))
    obtain ⟨e1, e2, e3⟩ :=
      ensureArticles_spec c.Articles aids (urls ++ [c.FileNameBase]) errs
    have hnd' : (cs.map Chapter.ID).Nodup := (List.nodup_cons.mp (by simpa using hnd)).2
    have hhd : c.ID ∉ cs.map Chapter.ID := (List.nodup_cons.mp (by simpa using hnd)).1
    obtain ⟨errs2, r1, r2⟩ := ih ((c.ID, c) :: ids)
      (ensureArticles aids (urls ++ [c.FileNameBase]) errs c.Articles).1
      (ensureArticles aids (urls ++ [c.FileNameBase]) errs c.Articles).2.1
      (ensureArticles aids (urls ++ [c.FileNameBase]) errs c.Articles).2.2
      hnd'
      (by
        intro c' hc'
        rw [List.map_cons, List.mem_cons]
        rintro (he | he)
        · have he2 : c'.ID = c.ID := he
          exact hhd (he2 ▸ List.mem_map_of_mem Chapter.ID hc')
        · exact hfresh c' (List.mem_cons_of_mem _ hc') he)
    refine ⟨errs2, ?_, ?_⟩
    · have hstep : ensureChapters ids aids urls errs (c :: cs) =
          ensureChapters ((c.ID, c) :: ids)
            (ensureArticles aids (urls ++ [c.FileNameBase]) errs c.Articles).1
            (ensureArticles aids (urls ++ [c.FileNameBase]) errs c.Articles).2.1
            (ensureArticles aids (urls ++ [c.FileNameBase]) errs c.Articles).2.2
            cs := by
        simp [ensureChapters, halo]
      rw [hstep, r1, e1, e2]
      simp [manifestGo, List.append_assoc]
    · rw [r2, e3, e1]
      simp only [bookDupCount]
      omega

/-- A duplicate-free walk turns the seen set into the article IDs (up to
permutation) and certifies the combined list duplicate-free. -/
theorem artClean :
    ∀ (as : List Article) (seen : List String), seen.Nodup →
      artDupCount seen as = 0 →
      (artSeen seen as).Perm ((as.map fun a => a.data.ID) ++ seen) ∧
      ((as.map fun a => a.data.ID) ++ seen).Nodup := by
  intro as
  induction as with
  | nil =>
    intro seen h _
    exact ⟨by simp [artSeen], by simpa⟩
  | cons a as ih =>
    intro seen hnd hdc
    by_cases h : a.data.ID ∈ seen
    · exfalso
      simp [artDupCount, if_pos h] at hdc
    · have hdc' : artDupCount (a.data.ID :: seen) as = 0 := by
        simpa [artDupCount, if_neg h] using hdc
      have hnd' : (a.data.ID :: seen).Nodup := List.nodup_cons.mpr ⟨h, hnd⟩
      obtain ⟨p1, p2⟩ := ih (a.data.ID :: seen) hnd' hdc'
      constructor
      · have hs : artSeen seen (a :: as) = artSeen (a.data.ID :: seen) as := by
          simp [artSeen, if_neg h]
        rw [hs]
        exact p1.trans List.perm_middle
      · exact List.perm_middle.nodup p2

/-- A duplicate-free book walk certifies all article IDs duplicate-free. -/
theorem bookClean :
    ∀ (cs : List Chapter) (seen : List String), seen.Nodup →
      bookDupCount seen cs = 0 → (allArticleIds cs ++ seen).Nodup := by
  intro cs
  induction cs with
  | nil =>
    intro seen h _
    simpa [allArticleIds]
  | cons c cs ih =>
    intro seen hnd hdc
    simp only [bookDupCount] at hdc
    have hdc1 : artDupCount seen c.Articles = 0 := by omega
    have hdc2 : bookDupCount (artSeen seen c.Articles) cs = 0 := by omega
    obtain ⟨p1, p2⟩ := artClean c.Articles seen hnd hdc1
    have hseen' : (artSeen seen c.Articles).Nodup := (p1.nodup_iff).mpr p2
    have hrec := ih (artSeen seen c.Articles) hseen' hdc2
    have h3 : (allArticleIds cs ++
        ((c.Articles.map fun a => a.data.ID) ++ seen)).Nodup :=
      (List.Perm.append_left _ p1).nodup hrec
    have hperm2 : ((c.Articles.map fun a => a.data.ID) ++ allArticleIds cs ++
        seen).Perm (allArticleIds cs ++
          ((c.Articles.map fun a => a.data.ID) ++ seen)) := by
      rw [List.append_assoc]
      exact (List.perm_append_comm).trans (by
        rw [List.append_assoc]
        exact List.Perm.append_left _ List.perm_append_comm)
    have : ((c.Articles.map fun a => a.data.ID) ++ allArticleIds cs ++
        seen).Nodup := hperm2.symm.nodup h3
    simpa [allArticleIds] using this

theorem articlesCount_preserves_chapters (b : Book) :
    (Book.ArticlesCount b).2.Chapters = b.Chapters := by
  unfold Book.ArticlesCount
  split <;> rfl

/-- C3.  With unique chapter IDs but some article ID repeated anywhere in the
book, identifier validation completes (no process exit), records at least one
diagnostic, produces exactly the manifest of unique slugs in walking order
(the duplicate's slug is skipped), and the finished book keeps every
chapter and article. -/
theorem ensureUniqueIds_C3 (book : Book)
    (hch : (book.Chapters.map Chapter.ID).Nodup)
    (hart : ¬ (allArticleIds book.Chapters).Nodup) :
    ∃ errs2, ensureUniqueIds book = .done ⟨manifestUrls book.Chapters, errs2⟩ ∧
      errs2 ≠ [] ∧
      ∀ e2 : Option String, ∃ b2,
        finalizeBook book e2 = .finished b2 e2 ∧
        b2.Chapters = book.Chapters := by
  obtain ⟨errs2, r1, r2⟩ := ensureChapters_done_spec book.Chapters [] [] [] []
    hch (by simp)
  have hdc : bookDupCount [] book.Chapters ≠ 0 := by
    intro h0
    exact hart (by simpa using bookClean book.Chapters [] (by simp) h0)
  have hu : ensureUniqueIds book =
      .done ⟨manifestUrls book.Chapters, errs2⟩ := by
    simpa [ensureUniqueIds, manifestUrls] using r1
  refine ⟨errs2, hu, ?_, ?_⟩
  · intro he
    rw [he] at r2
    simp at r2
    omega
  · intro e2
    refine ⟨(Book.ArticlesCount
        { book with knownUrls := manifestUrls book.Chapters }).2, ?_, ?_⟩
    · simp [finalizeBook, hu]
    · rw [articlesCount_preserves_chapters]

/-- Witness for C3 at a concrete book with a repeated article ID. -/
theorem ensureUniqueIds_C3_witness :
    ∃ errs2, ensureUniqueIds bookDupArticle =
        .done ⟨manifestUrls bookDupArticle.Chapters, errs2⟩ ∧ errs2 ≠ [] := by
  obtain ⟨errs2, h1, h2, _⟩ :=
    ensureUniqueIds_C3 bookDupArticle (by decide) (by decide)
  exact ⟨errs2, h1, h2⟩

/-! ## C4 — include expansion and the degrade-to-raw fallback -/

@[simp] theorem stringData_mk (cs : List Char) : (String.mk cs).data = cs := rfl

@[simp] theorem stringMk_data (s : String) : String.mk s.data = s := rfl

theorem splitFirstColon_eq :
    ∀ (xs a b : List Char), splitFirstColon xs = some (a, b) →
      a ++ ':' :: b = xs := by
  intro xs
  induction xs with
  | nil => intro a b h; simp [splitFirstColon] at h
  | cons c rest ih =>
    intro a b h
    by_cases hc : c = ':'
    · subst hc
      have h0 : splitFirstColon (':' :: rest) = some ([], rest) := rfl
      rw [h0] at h
      have h5 := Option.some.inj h
      have h6 : ([] : List Char) = a := congrArg Prod.fst h5
      have h7 : rest = b := congrArg Prod.snd h5
      rw [← h6, ← h7]
      rfl
    · simp only [splitFirstColon, if_neg hc] at h
      cases hr : splitFirstColon rest with
      | none => rw [hr] at h; simp at h
      | some p =>
        rw [hr] at h
        simp only [Option.map_some', Option.some.injEq, Prod.mk.injEq] at h
        obtain ⟨h1, h2⟩ := h
        have hrec := ih p.1 p.2 (by rw [hr])
        rw [← h1, ← h2, List.cons_append, hrec]

theorem keySplit_atFile (l : String) (h : startsAtFile l = true) :
    keySplit l = none := by
  obtain ⟨t, ht⟩ : ∃ t, l.data = "@file ".data ++ t := by
    obtain ⟨t, ht⟩ := List.isPrefixOf_iff_prefix.mp h
    exact ⟨t, ht.symm⟩
  unfold keySplit
  cases hs : splitFirstColon l.data with
  | none => rfl
  | some p =>
    obtain ⟨a, b⟩ := p
    have he := splitFirstColon_eq l.data a b hs
    cases a with
    | nil =>
      exfalso
      have hh := congrArg List.head? (he.trans ht)
      rw [show ("@file ".data : List Char) = '@' :: "file ".data from rfl] at hh
      simp at hh
    | cons x xs =>
      have hx : x = '@' := by
        have hh := congrArg List.head? (he.trans ht)
        rw [show ("@file ".data : List Char) = '@' :: "file ".data from rfl] at hh
        simpa using hh
      have hall : ((x :: xs).all Char.isAlphanum) = false := by
        rw [hx]
        simp only [List.all_cons, Bool.and_eq_false_iff]
        left
        decide
      simp [hall]

theorem trimSpaces_mem (s : String) (c : Char)
    (h : c ∈ (trimSpaces s).data) : c ∈ s.data := by
  unfold trimSpaces at h
  rw [stringData_mk, List.mem_reverse] at h
  have h2 := (List.dropWhile_sublist _).subset h
  rw [List.mem_reverse] at h2
  exact (List.dropWhile_sublist _).subset h2

theorem keySplit_noNl (l : String) (k v : String) (hnl : '\n' ∉ l.data)
    (h : keySplit l = some (k, v)) : '\n' ∉ v.data := by
  unfold keySplit at h
  cases hs : splitFirstColon l.data with
  | none => rw [hs] at h; simp at h
  | some p =>
    rw [hs] at h
    obtain ⟨a, b⟩ := p
    have h2 : (if a ≠ [] ∧ (a.all Char.isAlphanum) = true
        then some (String.mk a, trimSpaces (String.mk b)) else none) =
          some (k, v) := h
    by_cases hcond : a ≠ [] ∧ (a.all Char.isAlphanum) = true
    · rw [if_pos hcond] at h2
      simp only [Option.some.injEq, Prod.mk.injEq] at h2
      obtain ⟨_, hv2⟩ := h2
      intro hc
      rw [← hv2] at hc
      have hb : '\n' ∈ b := by simpa using trimSpaces_mem (String.mk b) _ hc
      apply hnl
      rw [← splitFirstColon_eq l.data a b hs]
      exact List.mem_append_right _ (List.mem_cons_of_mem _ hb)
    · rw [if_neg hcond] at h2
      simp at h2

theorem splitCh_not_mem (c : Char) (xs : List Char) (h : c ∉ xs) :
    splitCh c xs = [xs] := by
  induction xs with
  | nil => rfl
  | cons x t ih =>
    have hx : ¬ x = c := fun he => h (he ▸ List.mem_cons_self x t)
    have ht : c ∉ t := fun hm => h (List.mem_cons_of_mem _ hm)
    simp [splitCh, hx, ih ht]

theorem splitCh_append (c : Char) (xs t : List Char) (h : c ∉ xs) :
    splitCh c (xs ++ c :: t) = xs :: splitCh c t := by
  induction xs with
  | nil => simp [splitCh]
  | cons x ys ih =>
    have hx : ¬ x = c := fun he => h (he ▸ List.mem_cons_self x ys)
    have hys : c ∉ ys := fun hm => h (List.mem_cons_of_mem _ hm)
    simp only [List.cons_append, splitCh]
    rw [if_neg hx]
    show (match splitCh c (ys ++ c :: t) with
      | [] => [[x]]
      | y :: ys2 => (x :: y) :: ys2) = (x :: ys) :: splitCh c t
    rw [ih hys]

theorem splitNl_joinNl :
    ∀ (ls : List String), ls ≠ [] → (∀ x ∈ ls, '\n' ∉ x.data) →
      splitNl (joinNl ls) = ls := by
  intro ls
  induction ls with
  | nil => intro h; exact absurd rfl h
  | cons x ls ih =>
    intro _ hnl
    cases ls with
    | nil =>
      show splitNl (joinNl [x]) = [x]
      simp only [splitNl, joinNl, List.map, joinWithNl, stringData_mk]
      rw [splitCh_not_mem '\n' x.data (hnl x (List.mem_cons_self _ _))]
      simp
    | cons y ls2 =>
      have hx : '\n' ∉ x.data := hnl x (List.mem_cons_self _ _)
      have hjoin : joinNl (x :: y :: ls2) =
          String.mk (x.data ++ '\n' :: joinWithNl ((y :: ls2).map String.data)) := by
        simp [joinNl, joinWithNl]
      rw [hjoin]
      simp only [splitNl, stringData_mk]
      rw [splitCh_append '\n' x.data _ hx]
      have hrec := ih (by simp) (fun z hz => hnl z (List.mem_cons_of_mem _ hz))
      simp only [splitNl, joinNl, stringData_mk, List.map_cons] at hrec
      simp [hrec]

theorem mem_splitNl_joinNl (ls : List String) (l : String) (h : l ∈ ls)
    (hnl : ∀ x ∈ ls, '\n' ∉ x.data) : isLineOf l (joinNl ls) := by
  unfold isLineOf
  rw [splitNl_joinNl ls (by rintro rfl; simp at h) hnl]
  exact h

theorem kvGo_entry_exists :
    ∀ (lines : List String) (k : String) (vs : List String),
      ∃ ws, (∀ w ∈ ws, w ∈ lines) ∧
        (⟨k, joinNl (vs ++ ws)⟩ : KeyValue) ∈ kvGo (some (k, vs)) lines := by
  intro lines
  induction lines with
  | nil =>
    intro k vs
    exact ⟨[], by simp, by simp [kvGo, kvFlush]⟩
  | cons l rest ih =>
    intro k vs
    cases hks : keySplit l with
    | some p =>
      obtain ⟨k2, v2⟩ := p
      refine ⟨[], by simp, ?_⟩
      simp [kvGo, hks, kvFlush]
    | none =>
      obtain ⟨ws, hw, hmem⟩ := ih k (vs ++ [l])
      refine ⟨l :: ws, ?_, ?_⟩
      · intro w hwm
        rcases List.mem_cons.mp hwm with rfl | hwm
        · exact List.mem_cons_self _ _
        · exact List.mem_cons_of_mem _ (hw w hwm)
      · have hassoc : vs ++ l :: ws = (vs ++ [l]) ++ ws := by simp
        rw [hassoc]
        simpa [kvGo, hks] using hmem

theorem kvGo_retains :
    ∀ (lines : List String) (k : String) (vs : List String) (l : String),
      l ∈ lines → keySplit l = none →
      (∀ x ∈ lines, '\n' ∉ x.data) → (∀ v ∈ vs, '\n' ∉ v.data) →
      ∃ kv, kv ∈ kvGo (some (k, vs)) lines ∧ isLineOf l kv.Value := by
  intro lines
  induction lines with
  | nil => intro k vs l h; simp at h
  | cons x rest ih =>
    intro k vs l hl hks hnl hnv
    rcases List.mem_cons.mp hl with rfl | hl2
    · obtain ⟨ws, hw, hmem⟩ := kvGo_entry_exists rest k (vs ++ [l])
      refine ⟨⟨k, joinNl ((vs ++ [l]) ++ ws)⟩, ?_, ?_⟩
      · simpa [kvGo, hks] using hmem
      · refine mem_splitNl_joinNl _ _ (by simp) ?_
        intro z hz
        rcases List.mem_append.mp hz with hz2 | hz2
        · rcases List.mem_append.mp hz2 with hz3 | hz3
          · exact hnv z hz3
          · rw [List.mem_singleton.mp hz3]
            exact hnl l (List.mem_cons_self _ _)
        · exact hnl z (List.mem_cons_of_mem _ (hw z hz2))
    · cases hks2 : keySplit x with
      | some p =>
        obtain ⟨k2, v2⟩ := p
        have hnv2 : ∀ v ∈ kvInit v2, '\n' ∉ v.data := by
          intro v hv
          unfold kvInit at hv
          by_cases hz : v2 == ""
          · simp [hz] at hv
          · simp only [hz, Bool.false_eq_true, if_false, List.mem_singleton] at hv
            subst hv
            exact keySplit_noNl x k2 v (hnl x (List.mem_cons_self _ _)) hks2
        obtain ⟨kv, hkv, hline⟩ := ih k2 (kvInit v2) l hl2 hks
          (fun z hz => hnl z (List.mem_cons_of_mem _ hz)) hnv2
        refine ⟨kv, ?_, hline⟩
        simp only [kvGo, hks2]
        exact List.mem_append_right _ hkv
      | none =>
        obtain ⟨kv, hkv, hline⟩ := ih k (vs ++ [x]) l hl2 hks
          (fun z hz => hnl z (List.mem_cons_of_mem _ hz))
          (by
            intro v hv
            rcases List.mem_append.mp hv with hv2 | hv2
            · exact hnv v hv2
            · rw [List.mem_singleton.mp hv2]
              exact hnl x (List.mem_cons_self _ _))
        exact ⟨kv, by simpa [kvGo, hks2] using hkv, hline⟩

theorem expandIncludeLines_ok_flatMap (ext : Extractor) (dir : String) :
    ∀ (lines ls : List String) (f : String → List String),
      expandIncludeLines ext dir lines = .ok ls →
      (∀ l ∈ lines, startsAtFile l = true → ext dir l = .ok (f l)) →
      ls = lines.flatMap (fun l => if startsAtFile l then f l else [l]) := by
  intro lines
  induction lines with
  | nil =>
    intro ls f h _
    simp only [expandIncludeLines, Except.ok.injEq] at h
    simp [← h]
  | cons l rest ih =>
    intro ls f h hall
    by_cases hs : startsAtFile l
    · have hx : ext dir l = .ok (f l) := hall l (List.mem_cons_self _ _) hs
      simp only [expandIncludeLines, hs, if_true] at h
      rw [hx] at h
      cases hr : expandIncludeLines ext dir rest with
      | error e => rw [hr] at h; simp at h
      | ok rs =>
        rw [hr] at h
        simp only [Except.ok.injEq] at h
        have hrec := ih rs f hr
          (fun l2 h2 hs2 => hall l2 (List.mem_cons_of_mem _ h2) hs2)
        rw [← h, hrec]
        simp [hs]
    · simp only [expandIncludeLines, hs, Bool.false_eq_true, if_false] at h
      cases hr : expandIncludeLines ext dir rest with
      | error e => rw [hr] at h; simp at h
      | ok rs =>
        rw [hr] at h
        simp only [Except.ok.injEq] at h
        have hrec := ih rs f hr
          (fun l2 h2 hs2 => hall l2 (List.mem_cons_of_mem _ h2) hs2)
        rw [← h, hrec]
        simp [hs]

/-- C4.  If include expansion fails, the parser falls back to tokenizing the
original unexpanded file, and (for a file whose first line is a key line) the
literal `@file` directive line survives verbatim as a line of some entry's
value; if expansion succeeds, the tokenized lines are exactly the original
lines with each `@file` line replaced by the extractor's lines in order. -/
theorem paarseKV_C4 (fs : FS) (ext : Extractor) (path : String)
    (lines : List String) (hread : fs.readLines path = some lines) :
    (∀ e, processFileIncludes fs ext path = .error e →
      paarseKVFileWithIncludes fs ext path = .ok (parseKVLines lines)) ∧
    (∀ h0 rest l, lines = h0 :: rest → (keySplit h0).isSome →
      l ∈ rest → startsAtFile l = true →
      (∀ x ∈ lines, '\n' ∉ x.data) →
      ∃ kv, kv ∈ parseKVLines lines ∧ isLineOf l kv.Value) ∧
    (∀ ls, processFileIncludes fs ext path = .ok ls →
      paarseKVFileWithIncludes fs ext path = .ok (parseKVLines ls) ∧
      ∀ f : String → List String,
        (∀ l ∈ lines, startsAtFile l = true → ext (dirOf path) l = .ok (f l)) →
        ls = lines.flatMap (fun l => if startsAtFile l then f l else [l])) := by
  refine ⟨?_, ?_, ?_⟩
  · intro e he
    simp [paarseKVFileWithIncludes, he, parseKVFile, hread]
  · intro h0 rest l hlines hk0 hl hs hnl
    obtain ⟨⟨k0, v0⟩, hk0e⟩ : ∃ p, keySplit h0 = some p :=
      Option.isSome_iff_exists.mp hk0
    have hp : parseKVLines lines = kvGo (some (k0, kvInit v0)) rest := by
      rw [hlines]
      simp [parseKVLines, kvGo, hk0e, kvFlush]
    rw [hp]
    refine kvGo_retains rest k0 (kvInit v0) l hl (keySplit_atFile l hs)
      (fun z hz => hnl z (hlines ▸ List.mem_cons_of_mem _ hz)) ?_
    intro v hv
    unfold kvInit at hv
    by_cases hz : v0 == ""
    · simp [hz] at hv
    · simp only [hz, Bool.false_eq_true, if_false, List.mem_singleton] at hv
      subst hv
      exact keySplit_noNl h0 k0 v
        (hnl h0 (hlines ▸ List.mem_cons_self _ _)) hk0e
  · intro ls hok
    have hexp : expandIncludeLines ext (dirOf path) lines = .ok ls := by
      have := hok
      rw [processFileIncludes, hread] at this
      exact this
    refine ⟨by simp [paarseKVFileWithIncludes, hok], ?_⟩
    intro f hall
    exact expandIncludeLines_ok_flatMap ext (dirOf path) lines ls f hexp hall

/-- Witness for C4: the fallback on a concrete file whose `@file` directive
cannot be resolved, with the directive line kept verbatim in the document. -/
theorem paarseKV_C4_witness :
    paarseKVFileWithIncludes cfsInc cextFail "d/art.md" =
      .ok (parseKVLines ["Id: 7", "Body:", "@file snippets/x.go", "tail"]) ∧
    ∃ kv, kv ∈ parseKVLines ["Id: 7", "Body:", "@file snippets/x.go", "tail"] ∧
      isLineOf "@file snippets/x.go" kv.Value := by
  have h := paarseKV_C4 cfsInc cextFail "d/art.md"
    ["Id: 7", "Body:", "@file snippets/x.go", "tail"] rfl
  refine ⟨h.1 "no snippet" rfl, ?_⟩
  exact h.2.1 "Id: 7" ["Body:", "@file snippets/x.go", "tail"]
    "@file snippets/x.go" rfl (by decide) (by decide) (by decide) (by decide)

/-! ## C8 — deterministic numbering after the barrier -/

theorem getD_append_left {α : Type} (l1 l2 : List α) (i : Nat) (d : α)
    (h : i < l1.length) : (l1 ++ l2).getD i d = l1.getD i d := by
  rw [listGetD_of_lt _ _ _ (by simp; omega), listGetD_of_lt _ _ _ h]
  simp only [List.get_eq_getElem]
  exact List.getElem_append_left h

theorem getD_concat_length {α : Type} (l : List α) (a d : α) :
    (l ++ [a]).getD l.length d = a := by
  rw [listGetD_of_lt _ _ _ (by simp)]
  simp [List.get_eq_getElem, List.getElem_concat_length]

/-- The article loop of `parseChapter` numbers the produced articles densely
1-based in listing order. -/
theorem parseChapterArts_numbered (fs : FS) (ext : Extractor) (dir : String) :
    ∀ (fis : List FileInfo) (acc : List Article),
      (∀ i, i < acc.length → (acc.getD i default).data.No = i + 1) →
      ∀ out, parseChapterArts fs ext dir acc fis = .ok out →
      ∀ i, i < out.length → (out.getD i default).data.No = i + 1 := by
  intro fis
  induction fis with
  | nil =>
    intro acc hacc out hout
    simp only [parseChapterArts, Except.ok.injEq] at hout
    exact hout ▸ hacc
  | cons fi rest ih =>
    intro acc hacc out hout
    by_cases hfi : isArticleFile fi
    · simp only [parseChapterArts, hfi, if_true] at hout
      cases hres : (parseArticle fs ext (joinPath dir fi.name)).res with
      | error e => rw [hres] at hout; exact absurd hout (by simp)
      | ok a =>
        rw [hres] at hout
        refine ih (acc ++ [a.setNo (acc.length + 1)]) ?_ out hout
        intro i hi
        rw [List.length_append, List.length_singleton] at hi
        by_cases hlt : i < acc.length
        · rw [getD_append_left _ _ _ _ hlt]
          exact hacc i hlt
        · have hieq : i = acc.length := by omega
          subst hieq
          rw [getD_concat_length]
          simp
    · simp only [parseChapterArts, hfi, Bool.false_eq_true, if_false] at hout
      exact ih acc hacc out hout

@[simp] theorem buildArticleSiblings_length (articles : List Article) :
    (buildArticleSiblings articles).length = articles.length := by
  simp [buildArticleSiblings]

/-- `buildArticleSiblings` only attaches sibling lists: the scalar fields of
every article are untouched. -/
theorem buildArticleSiblings_getD_data (articles : List Article) (i : Nat)
    (h : i < articles.length) :
    ((buildArticleSiblings articles).getD i default).data =
      (articles.getD i default).data := by
  rw [listGetD_of_lt _ _ _ (by simp [h]), listGetD_of_lt _ _ _ h]
  simp [buildArticleSiblings, List.get_eq_getElem]

/-- A chapter task starting from an articleless chapter record ends with
densely numbered articles (also when it fails: the articles stay empty). -/
theorem parseChapter_articles_numbered (fs : FS) (ext : Extractor)
    (srcDir : String) (c : Chapter) (hc : c.Articles = []) :
    ∀ i, i < (parseChapter fs ext srcDir c).1.Articles.length →
      ((parseChapter fs ext srcDir c).1.Articles.getD i default).data.No =
        i + 1 := by
  intro i hi
  revert hi
  simp only [parseChapter]
  cases hT : getValue ((paarseKVFileWithIncludes fs ext
      (joinPath (joinPath srcDir c.ChapterDir) "000-index.md")).toOption.getD []) "Title" with
  | none => simp [hc]
  | some title =>
    cases hI : getValue ((paarseKVFileWithIncludes fs ext
        (joinPath (joinPath srcDir c.ChapterDir) "000-index.md")).toOption.getD []) "Id" with
    | none => simp [hc]
    | some id =>
      by_cases hs : hasSpaceChar id
      · simp [hs, hc]
      · simp only [hs, Bool.false_eq_true, if_false]
        cases harts : parseChapterArts fs ext (joinPath srcDir c.ChapterDir) []
            ((fs.readDir (joinPath srcDir c.ChapterDir)).getD []) with
        | error e => simp [hc]
        | ok arts =>
          intro hi
          simp only at hi ⊢
          have hlen : (buildArticleSiblings arts).length = arts.length := by simp
          have hi2 : i < arts.length := by
            have := hi
            simpa [hlen] using this
          rw [buildArticleSiblings_getD_data arts i hi2]
          exact parseChapterArts_numbered fs ext _ _ [] (by simp) arts harts i hi2

/-- The record updates at the tail of `parseBook` preserve the chapter
list. -/
theorem finalizeBook_finished (b : Book) (e2 : Option String) (book : Book)
    (e : Option String) (h : finalizeBook b e2 = .finished book e) :
    book.Chapters = b.Chapters ∧ e = e2 := by
  unfold finalizeBook at h
  cases hens : ensureUniqueIds b with
  | fatal out => rw [hens] at h; exact absurd h (by simp)
  | done o =>
    rw [hens] at h
    simp only [ParseBookResult.finished.injEq] at h
    obtain ⟨h1, h2⟩ := h
    refine ⟨?_, h2.symm⟩
    rw [← h1, articlesCount_preserves_chapters]

/-- Renumbering after the barrier gives chapter `i` ordinal `i + 1`. -/
theorem enum_renumber_getD_eq (cs0 : List Chapter) (i : Nat)
    (h : i < cs0.length) :
    (cs0.enum.map (fun p : Nat × Chapter =>
        ({ p.2 with No := p.1 + 1 } : Chapter))).getD i default =
      { cs0.getD i default with No := i + 1 } := by
  rw [listGetD_of_lt _ _ _ (by simp [h]), listGetD_of_lt _ _ _ h]
  simp [List.get_eq_getElem]

/-- Folding task writes over an array: every covered slot holds its task's
result, untouched slots keep their old value. -/
theorem foldl_set_getD {α : Type} (f : Nat → α) (d : α) :
    ∀ (sched : List Nat) (arr : List α),
      ((sched.foldl (fun a t => a.set t (f t)) arr).length = arr.length) ∧
      (∀ i, i < arr.length →
        (sched.foldl (fun a t => a.set t (f t)) arr).getD i d =
          if i ∈ sched then f i else arr.getD i d) := by
  intro sched
  induction sched with
  | nil =>
    intro arr
    exact ⟨rfl, by intro i hlt; simp⟩
  | cons t rest ih =>
    intro arr
    obtain ⟨ihl, ihg⟩ := ih (arr.set t (f t))
    constructor
    · simp only [List.foldl_cons]
      rw [ihl, List.length_set]
    · intro i hi
      simp only [List.foldl_cons]
      rw [ihg i (by rw [List.length_set]; exact hi)]
      by_cases hmem : i ∈ rest
      · simp [hmem]
      · simp only [hmem, if_false]
        by_cases hit : i = t
        · subst hit
          rw [listGetD_of_lt _ _ _ (by rw [List.length_set]; exact hi)]
          simp only [List.get_eq_getElem, List.getElem_set, if_pos rfl]
          simp
        · rw [listGetD_of_lt _ _ _ (by rw [List.length_set]; exact hi),
              listGetD_of_lt _ _ _ hi]
          simp only [List.get_eq_getElem, List.getElem_set]
          rw [if_neg (fun he => hit he.symm)]
          simp [List.mem_cons, hit, hmem]

/-- The chapter tasks are pure, so any completion order that covers every
task produces the directory-listing-order results; the post-barrier
renumbering therefore never depends on worker completion order. -/
theorem parseChaptersSched_eq (fs : FS) (ext : Extractor) (srcDir : String)
    (dirs : List String) (sched : List Nat)
    (hcov : ∀ i, i < dirs.length → i ∈ sched) :
    parseChaptersSched fs ext srcDir dirs sched =
      parseChaptersInOrder fs ext srcDir dirs := by
  unfold parseChaptersSched parseChaptersInOrder
  obtain ⟨hl, hg⟩ := foldl_set_getD (chapterTask fs ext srcDir dirs)
    (chapterStub "", none) sched
    (List.replicate dirs.length (chapterStub "", none))
  apply List.ext_getElem
  · rw [hl]
    simp
  · intro i h1 h2
    have hi : i < dirs.length := by simpa using h2
    have hgetD := hg i (by simpa using hi)
    rw [if_pos (hcov i hi)] at hgetD
    rw [listGetD_of_lt _ _ _ h1, List.get_eq_getElem] at hgetD
    rw [hgetD]
    simp only [chapterTask, List.getElem_map]
    rw [show dirs.getD i "" = dirs.get ⟨i, hi⟩ from listGetD_of_lt _ _ _ hi]
    simp [List.get_eq_getElem]

/-- Shape of the final chapter list of `parseBook`: the parsed chapters in
directory-listing order, the synthetic contributors chapter last, everything
renumbered densely after the barrier. -/
theorem chapters_renumber_props (book : Book) (fs : FS) (ext : Extractor)
    (srcDir : String) (dirs : List String) (contrib : Chapter)
    (hcoT : contrib.Title = "Contributors") (hcoD : contrib.ChapterDir = "")
    (hcoI : contrib.indexFilePath = "") (hcoA : contrib.Articles = [])
    (hch : book.Chapters =
      ((parseChaptersInOrder fs ext srcDir dirs).map (fun r => r.1) ++
        [contrib]).enum.map
          (fun p : Nat × Chapter => ({ p.2 with No := p.1 + 1 } : Chapter))) :
    (∀ i, i < book.Chapters.length →
      (book.Chapters.getD i default).No = i + 1) ∧
    book.Chapters ≠ [] ∧
    ((book.Chapters.getD (book.Chapters.length - 1) default).Title =
        "Contributors" ∧
      (book.Chapters.getD (book.Chapters.length - 1) default).ChapterDir = "" ∧
      (book.Chapters.getD (book.Chapters.length - 1) default).indexFilePath =
        "") ∧
    (∀ c ∈ book.Chapters, ∀ i, i < c.Articles.length →
      (c.Articles.getD i default).data.No = i + 1) := by
  have hlen : book.Chapters.length =
      ((parseChaptersInOrder fs ext srcDir dirs).map (fun r => r.1)).length + 1 := by
    rw [hch]
    simp
  have hrslen : ((parseChaptersInOrder fs ext srcDir dirs).map
      (fun r => r.1)).length = dirs.length := by
    simp [parseChaptersInOrder]
  refine ⟨?_, ?_, ?_, ?_⟩
  · intro i hi
    rw [hlen] at hi
    rw [hch, enum_renumber_getD_eq _ i (by simpa using hi)]
  · exact List.ne_nil_of_length_pos (by rw [hlen]; omega)
  · rw [hlen]
    simp only [Nat.add_sub_cancel]
    rw [hch, enum_renumber_getD_eq _ _ (by simp), getD_concat_length]
    exact ⟨hcoT, hcoD, hcoI⟩
  · intro c hc i hi
    rw [hch, List.mem_iff_get] at hc
    obtain ⟨⟨j, hj⟩, hcg⟩ := hc
    have hj2 : j < ((parseChaptersInOrder fs ext srcDir dirs).map
        (fun r => r.1)).length + 1 := by simpa using hj
    have hc2 : c = { ((parseChaptersInOrder fs ext srcDir dirs).map
        (fun r => r.1) ++ [contrib]).getD j default with No := j + 1 } := by
      have h1 : (((parseChaptersInOrder fs ext srcDir dirs).map
          (fun r => r.1) ++ [contrib]).enum.map
            (fun p : Nat × Chapter =>
              ({ p.2 with No := p.1 + 1 } : Chapter))).getD j default = c := by
        rw [listGetD_of_lt _ j default hj]
        exact hcg
      rw [← h1, enum_renumber_getD_eq _ j (by simpa using hj2)]
    by_cases hjr : j < ((parseChaptersInOrder fs ext srcDir dirs).map
        (fun r => r.1)).length
    · have hget := getD_append_left ((parseChaptersInOrder fs ext srcDir
        dirs).map (fun r => r.1)) [contrib] j (default : Chapter) hjr
      have hdl : j < dirs.length := by rw [← hrslen]; exact hjr
      have hrs : ((parseChaptersInOrder fs ext srcDir dirs).map
          (fun r => r.1)).getD j default =
          (parseChapter fs ext srcDir (chapterStub (dirs.get ⟨j, hdl⟩))).1 := by
        rw [listGetD_of_lt _ _ _ hjr]
        simp [parseChaptersInOrder, List.get_eq_getElem]
      rw [hc2, hget, hrs] at hi ⊢
      exact parseChapter_articles_numbered fs ext srcDir
        (chapterStub (dirs.get ⟨j, hdl⟩)) rfl i hi
    · have hje : j = ((parseChaptersInOrder fs ext srcDir dirs).map
        (fun r => r.1)).length := by omega
      subst hje
      have hget := getD_concat_length ((parseChaptersInOrder fs ext srcDir
        dirs).map (fun r => r.1)) contrib (default : Chapter)
      rw [hc2, hget] at hi
      have hnil : ({ contrib with No := ((parseChaptersInOrder fs ext srcDir
          dirs).map (fun r => r.1)).length + 1 } : Chapter).Articles =
          ([] : List Article) := hcoA
      rw [hnil] at hi
      simp at hi

/-- C8.  After a successful `parseBook`, chapter ordinals are exactly
`1..len` in final order, the synthetic contributors chapter (not sourced
from disk: no chapter directory, no index path) is last, article ordinals
are exactly `1..len` within every chapter, and the chapter results — hence
the post-barrier numbering — are independent of the worker completion
order. -/
theorem parseBook_C8 (fs : FS) (ext : Extractor)
    (loadSo : String → Except String (List SoContributor))
    (bookName : String) (book : Book) (e2 : Option String)
    (h : parseBook fs ext loadSo bookName = .finished book e2) :
    (∀ i, i < book.Chapters.length →
      (book.Chapters.getD i default).No = i + 1) ∧
    book.Chapters ≠ [] ∧
    ((book.Chapters.getD (book.Chapters.length - 1) default).Title =
        "Contributors" ∧
      (book.Chapters.getD (book.Chapters.length - 1) default).ChapterDir = "" ∧
      (book.Chapters.getD (book.Chapters.length - 1) default).indexFilePath =
        "") ∧
    (∀ c ∈ book.Chapters, ∀ i, i < c.Articles.length →
      (c.Articles.getD i default).data.No = i + 1) ∧
    (∀ (srcDir : String) (dirs : List String) (sched : List Nat),
      (∀ i, i < dirs.length → i ∈ sched) →
      parseChaptersSched fs ext srcDir dirs sched =
        parseChaptersInOrder fs ext srcDir dirs) := by
  simp only [parseBook] at h
  split at h
  · exact absurd h (by simp)
  · split at h
    · exact absurd h (by simp)
    · rename_i fis dirs soC heq
      obtain ⟨hch, _⟩ := finalizeBook_finished _ _ _ _ h
      obtain ⟨hA, hB, hC, hD⟩ := chapters_renumber_props book fs ext
        (joinPath "books" (makeURLSafe bookName)) dirs _ rfl rfl rfl rfl hch
      exact ⟨hA, hB, hC, hD,
        fun srcDir2 dirs2 sched hcov =>
          parseChaptersSched_eq fs ext srcDir2 dirs2 sched hcov⟩

/-- Witness for C8 at a concrete one-chapter book fixture. -/
theorem parseBook_C8_witness :
    bookParsed.Chapters ≠ [] ∧
    (bookParsed.Chapters.getD (bookParsed.Chapters.length - 1) default).Title =
      "Contributors" ∧
    (bookParsed.Chapters.getD 0 default).No = 1 := by
  have h := parseBook_C8 cfs cextFail cloadSo "b" bookParsed none (by rfl)
  exact ⟨h.2.1, h.2.2.1.1, h.1 0 (by decide)⟩

/-! ## C9 — the worker pool: bound and barrier hold, error reporting races -/

/-- Every pool step preserves the invariant. -/
theorem poolInv_step (M N : Nat) (res : Nat → Option String)
    (s s' : PoolState) (hinv : PoolInv N s) (hstep : PoolStep M N res s s') :
    PoolInv N s' := by
  obtain ⟨hlen, hbound, hnodup, hfresh, hdone⟩ := hinv
  cases hstep with
  | dispatch h1 h2 =>
    refine ⟨by simpa using h2, ?_, ?_, ?_, ?_⟩
    · intro t ht
      rcases List.mem_cons.mp ht with rfl | ht2
      · simp
      · have := hbound t ht2
        simp
        omega
    · refine List.nodup_cons.mpr ⟨?_, hnodup⟩
      intro hmem
      exact absurd (hbound _ hmem) (by omega)
    · intro t ht
      exact hfresh t (by simp at ht; omega)
    · intro t ht hnm
      have hne : t ≠ s.next := fun he => hnm (by simp [he])
      have hna : t ∉ s.active := fun hm => hnm (by simp [hm])
      have htl : t < s.next := by simp at ht; omega
      exact hdone t htl hna
  | write t ht hp =>
    refine ⟨hlen, hbound, hnodup, ?_, ?_⟩
    · intro u hu
      have hne : u ≠ t := by
        intro he
        subst he
        exact absurd (hbound u ht) (by simp at hu; omega)
      simpa [updFn, hne] using hfresh u hu
    · intro u hu hnm
      have hne : u ≠ t := fun he => hnm (he ▸ ht)
      simpa [updFn, hne] using hdone u hu hnm
  | check t ht hp =>
    refine ⟨hlen, hbound, hnodup, ?_, ?_⟩
    · intro u hu
      have hne : u ≠ t := by
        intro he
        subst he
        exact absurd (hbound u ht) (by simp at hu; omega)
      simpa [updFn, hne] using hfresh u hu
    · intro u hu hnm
      have hne : u ≠ t := fun he => hnm (he ▸ ht)
      simpa [updFn, hne] using hdone u hu hnm
  | release t ht hp =>
    refine ⟨?_, ?_, ?_, ?_, ?_⟩
    · exact le_trans (List.Sublist.length_le (List.erase_sublist _ _)) hlen
    · intro u hu
      exact hbound u (List.mem_of_mem_erase hu)
    · exact hnodup.erase _
    · intro u hu
      have hne : u ≠ t := by
        intro he
        subst he
        exact absurd (hbound u ht) (by simp at hu; omega)
      simpa [updFn, hne] using hfresh u hu
    · intro u hu hnm
      by_cases he : u = t
      · subst he
        simp [updFn]
      · have hum : u ∉ s.active := fun hm =>
          hnm ((List.mem_erase_of_ne he).mpr hm)
        simpa [updFn, he] using hdone u hu hum

/-- The invariant holds in every reachable pool state. -/
theorem pool_reach_inv (M N : Nat) (res : Nat → Option String) :
    ∀ s, PoolReach M N res s → PoolInv N s := by
  intro s h
  induction h with
  | init =>
    exact ⟨by simp [initPool], by simp [initPool], by simp [initPool],
      fun t _ => rfl, fun t ht _ => absurd ht (by simp [initPool])⟩
  | step hr hs ih => exact poolInv_step _ _ _ _ _ ih hs

/-- C9 (amended).  In every reachable state of the worker pool at most `N`
chapter tasks hold a pool slot (so at most `N` `parseChapter` calls are in
flight), and once the barrier is passed every one of the `M` dispatched
tasks has run to completion — a failing chapter never halts the others.
The error-reporting part of the original claim is racy and fails, see the
counterexample. -/
theorem pool_C9 (M N : Nat) (res : Nat → Option String) (s : PoolState)
    (h : PoolReach M N res s) :
    s.active.length ≤ N ∧
    (atBarrier M s → ∀ t, t < M → s.phase t = 3) := by
  obtain ⟨hlen, _, _, _, hdone⟩ := pool_reach_inv M N res s h
  refine ⟨hlen, ?_⟩
  rintro ⟨hnext, hact⟩ t ht
  exact hdone t (by omega) (by simp [hact])

/-- Witness for the amended C9 at the initial pool state. -/
theorem pool_C9_witness :
    initPool.active.length ≤ 2 ∧
    (atBarrier 3 initPool → ∀ t, t < 3 → initPool.phase t = 3) :=
  pool_C9 3 2 resLost initPool PoolReach.init

/-- Counterexample to C9 as stated: a sequentially consistent interleaving
of two tasks under pool size 2 in which task 0 fails, all tasks complete,
the barrier is reached — and yet the shared error cells end up empty, so no
error is reported to the caller.  The cause is the unsynchronized shared
`err` variable: task 1's success overwrites it before task 0 checks it. -/
theorem pool_lost_error_C9 :
    ∃ s : PoolState, PoolReach 2 2 resLost s ∧ atBarrier 2 s ∧
      s.err2V = none ∧ resLost 0 = some "chapter 0 failed" := by
  refine ⟨_, PoolReach.step (PoolReach.step (PoolReach.step (PoolReach.step
    (PoolReach.step (PoolReach.step (PoolReach.step (PoolReach.step
      PoolReach.init
      (PoolStep.dispatch _ ?_ ?_))
      (PoolStep.dispatch _ ?_ ?_))
      (PoolStep.write _ 0 ?_ ?_))
      (PoolStep.write _ 1 ?_ ?_))
      (PoolStep.check _ 0 ?_ ?_))
      (PoolStep.check _ 1 ?_ ?_))
      (PoolStep.release _ 0 ?_ ?_))
      (PoolStep.release _ 1 ?_ ?_), ?_, ?_, rfl⟩
  all_goals first
    | decide
    | simp [initPool, updFn, atBarrier, resLost]

end BooksGen
